import Mathlib

/-!
# Verification of the ARXML tree core (vscode-arxml-tree)

A shallow embedding, in Lean 4, of the core data structures and algorithms of
the `vscode-arxml-tree` repository:

* the streaming sax-event handlers of `src/arxmlParser.ts`
  (`parseArxmlDocument`, `createNodeForFrame`, `onopentag`, `ontext`,
  `onclosetag`, `onerror`) as a pure state machine over an event list;
* path normalization and variant generation of `src/treeProvider.ts`
  (`normalizeArpath`, `buildArpathVariants`);
* the incremental ARPATH index (`indexDocument`, `removeDocumentFromIndex`);
* the filter projection (`buildFilteredTreeWithFilter`, `matchesTreeFilter`,
  `reparentTree`);
* the document cache re-parse batch logic (`parseDocuments`, `sameList`).

JavaScript runtime behaviour that the source relies on is reproduced
explicitly: `String.prototype.trim` (via `jsWs`), truthiness of strings
(empty string is falsy), `Map`/`Set` semantics (insertion-ordered maps
with in-place update), and `Array.prototype.push`/`pop` stack
discipline.  External collaborators (the sax tokenizer, the `RegExp`
engine, the vscode position resolver) are treated as parameters: the sax
tokenizer as the incoming event list, the regex engine as an opaque
match function, and source ranges are not modelled (no claim mentions
them).
-/

namespace ArxmlTree

/-! ## JavaScript string primitives -/
/-- The character class recognised by `String.prototype.trim` in
JavaScript: WhiteSpace and LineTerminator code points. -/
def jsWs (c : Char) : Bool :=
  c = ' ' || c = '\t' || c = '\n' || c = '\r' ||
  c.val = 11 || c.val = 12 || c.val = 0xA0 || c.val = 0xFEFF ||
  c.val = 0x1680 || (decide (0x2000 ≤ c.val) && decide (c.val ≤ 0x200A)) ||
  c.val = 0x2028 || c.val = 0x2029 || c.val = 0x202F ||
  c.val = 0x205F || c.val = 0x3000

/-- Drop `jsWs` characters from the end of a character list. -/
def dropEndWs (l : List Char) : List Char :=
  (l.reverse.dropWhile jsWs).reverse

/-- `String.prototype.trim` on a character list. -/
def jsTrimL (l : List Char) : List Char :=
  dropEndWs (l.dropWhile jsWs)

/-- `String.prototype.trim`. -/
def jsTrim (s : String) : String :=
  ⟨jsTrimL s.data⟩

/-- Is `pat` an initial segment of the second list? -/
def startsWithL : List Char → List Char → Bool
  | [], _ => true
  | _ :: _, [] => false
  | a :: pat, b :: l => a = b && startsWithL pat l

/-- Does the second list contain `pat` as a contiguous segment? -/
def containsL (pat : List Char) : List Char → Bool
  | [] => startsWithL pat []
  | b :: l => startsWithL pat (b :: l) || containsL pat l

/-- `value.includes(pattern)` for strings. -/
def jsIncludes (value pattern : String) : Bool :=
  containsL pattern.data value.data

/-! ## JavaScript `Map` and `Set`

A `Map` is modelled as an insertion-ordered association list with unique
keys maintained by construction; `get` is first-match, `set` overwrites in
place, `delete` removes.  A `Set` of strings is a list in insertion order
with membership-checked insertion. -/
/-- `Map.prototype.get`. -/
def jsMapGet {β : Type} : List (String × β) → String → Option β
  | [], _ => none
  | e :: rest, k => if e.1 = k then some e.2 else jsMapGet rest k

/-- `Map.prototype.set`: overwrite in place if the key is present,
otherwise append. -/
def jsMapSet {β : Type} : List (String × β) → String → β → List (String × β)
  | [], k, v => [(k, v)]
  | e :: rest, k, v => if e.1 = k then (k, v) :: rest else e :: jsMapSet rest k v

/-- `Map.prototype.delete`. -/
def jsMapDelete {β : Type} : List (String × β) → String → List (String × β)
  | [], _ => []
  | e :: rest, k => if e.1 = k then jsMapDelete rest k else e :: jsMapDelete rest k

/-- `Set.prototype.add`. -/
def setAdd {α : Type} [DecidableEq α] (l : List α) (s : α) : List α :=
  if s ∈ l then l else l ++ [s]

/-! ## Path normalization (`normalizeArpath`, treeProvider.ts) -/
/-- The character class of `replace(/[\r\n\t]/g, '')`. -/
def isCC (c : Char) : Bool := c = '\r' || c = '\n' || c = '\t'

/-- `normalized.replace(/[\r\n\t]/g, '')`. -/
def stripCC (l : List Char) : List Char := l.filter (fun c => !isCC c)

/-- Worker for `collapseSlashes`: the flag records whether the last
emitted character was a separator. -/
def collapseGo (prevSlash : Bool) : List Char → List Char
  | [] => []
  | c :: rest =>
    if c = '/' then
      if prevSlash then collapseGo true rest
      else '/' :: collapseGo true rest
    else c :: collapseGo false rest

/-- `normalized.replace(/\/+/g, '/')`: collapse runs of `/` to a single
separator. -/
def collapseSlashes (l : List Char) : List Char := collapseGo false l

/-- Last element of a list. -/
def lastElem? {α : Type} : List α → Option α
  | [] => none
  | [a] => some a
  | _ :: b :: rest => lastElem? (b :: rest)

/-- `normalizeArpath` from treeProvider.ts, on character lists: trim,
strip carriage-control characters, collapse separator runs, ensure a
leading separator, strip one trailing separator when longer than one
character. -/
def normalizeL (l : List Char) : List Char :=
  if l = [] then []
  else
    let t := stripCC (jsTrimL l)
    let c := collapseSlashes t
    let w := if c.head? = some '/' then c else '/' :: c
    if lastElem? w = some '/' ∧ 1 < w.length then w.dropLast else w

/-- `normalizeArpath` from treeProvider.ts. -/
def normalizeArpath (arpath : String) : String := ⟨normalizeL arpath.data⟩

/-! ## ARPATH variants (`buildArpathVariants`, treeProvider.ts) -/
/-- `String.prototype.split('/')` on a character list. -/
def splitSlashes : List Char → List (List Char)
  | [] => [[]]
  | c :: rest =>
    let r := splitSlashes rest
    if c = '/' then [] :: r
    else
      match r with
      | [] => [[c]]
      | g :: gs => (c :: g) :: gs

/-- `Array.prototype.join('/')` on character lists. -/
def joinSlash : List (List Char) → List Char
  | [] => []
  | [g] => g
  | g :: gs => g ++ '/' :: joinSlash gs

/-- `buildArpathVariants` from treeProvider.ts on character lists: the
normalized path, the normalized path without its leading separator, and
(for paths with more than one nonempty segment) both of those with the
first segment removed; collected through a JavaScript `Set`. -/
def buildArpathVariantsL (arpath : List Char) : List (List Char) :=
  let normalized := normalizeL arpath
  let v1 := setAdd [] normalized
  let noLeading := if normalized.head? = some '/' then normalized.drop 1 else normalized
  let v2 := setAdd v1 noLeading
  let parts := (splitSlashes normalized).filter (fun s => s ≠ [])
  if 1 < parts.length then
    let withoutRoot := '/' :: joinSlash (parts.drop 1)
    setAdd (setAdd v2 withoutRoot) (withoutRoot.drop 1)
  else v2

/-- `buildArpathVariants` from treeProvider.ts. -/
def buildArpathVariants (arpath : String) : List String :=
  (buildArpathVariantsL arpath.data).map (fun l => ⟨l⟩)

/-! ### Properties of normalization -/
/-- Adjacent characters are never both separators. -/
def NoDup2 (l : List Char) : Prop :=
  l.Chain' (fun a b => a ≠ '/' ∨ b ≠ '/')

/-- The record of facts needed about the output of `normalizeL` on
nonempty input: it begins with a separator, has no adjacent separators,
contains no carriage-control characters, and ends with a separator only
when it is the single-character path. -/
def NormShape (x : List Char) : Prop :=
  x.head? = some '/' ∧ NoDup2 x ∧ x.all (fun ch => !isCC ch) = true ∧
    (lastElem? x = some '/' → x.length ≤ 1)

/-- The variant set described by the specification (§4.3), written out
directly from its words: "the normalized absolute path, the same without
a leading slash, and — when the path has more than one segment — both
forms with the first segment (document root alias) stripped". -/
def specVariantSet (arpath : String) : List String :=
  let n := normalizeL arpath.data
  let noLead := if n.head? = some '/' then n.drop 1 else n
  let segs := (splitSlashes n).filter (fun s => s ≠ [])
  let strippedAbs := '/' :: joinSlash (segs.drop 1)
  let strippedRel := joinSlash (segs.drop 1)
  if 1 < segs.length then
    [⟨n⟩, ⟨noLead⟩, ⟨strippedAbs⟩, ⟨strippedRel⟩]
  else [⟨n⟩, ⟨noLead⟩]

/-! ## The document node tree (`ArxmlNode`, arxmlNode.ts)

The `range` field of the source interface is a pair of editor positions
produced by the external position resolver; no claim concerns it and it
is omitted.  `parent` back-references are represented structurally: the
parent of a node is the node whose `children` list contains it. -/
/-- One element of interest in the source markup (arxmlNode.ts). -/
inductive ArxmlNode where
  | mk (name arpath element file : String) (uuid : Option String)
      (children : List ArxmlNode)

def ArxmlNode.name : ArxmlNode → String
  | .mk n _ _ _ _ _ => n

def ArxmlNode.arpath : ArxmlNode → String
  | .mk _ a _ _ _ _ => a

def ArxmlNode.element : ArxmlNode → String
  | .mk _ _ e _ _ _ => e

def ArxmlNode.file : ArxmlNode → String
  | .mk _ _ _ f _ _ => f

def ArxmlNode.uuid : ArxmlNode → Option String
  | .mk _ _ _ _ u _ => u

def ArxmlNode.children : ArxmlNode → List ArxmlNode
  | .mk _ _ _ _ _ c => c

/-! ## The streaming parser (arxmlParser.ts)

The sax tokenizer is an external library; it is modelled as the stream
of events it delivers to the handlers that arxmlParser.ts installs
(`onopentag`, `ontext`, `onclosetag`, `onerror`).  Node identity
(JavaScript reference equality, used by the `arNodeStack[top] ===
frame.node` check) is modelled by a per-parse counter assigning each
created node a unique id.  In the source a created node is appended to
its parent's `children` at creation time and then filled in through the
shared reference; here the finished node is attached to its parent when
it is popped off the active-parent stack (or at end of input), which
yields the same final tree. -/
/-- A sax callback event. -/
inductive SaxEvent where
  | openTag (tag : String) (uuid : Option String)
  | text (value : String)
  | closeTag
  | error

/-- An open-element frame (`ElementFrame` in arxmlParser.ts): tag name,
optional `UUID` attribute, the id of the `ArxmlNode` created for this
frame (if any), and the accumulated name text.  The `startOffset` field
of the source feeds only the omitted `range`. -/
structure ElementFrame where
  tag : String
  uuid : Option String
  nodeId : Option Nat
  shortName : Option String

/-- A node under construction on the active-parent stack
(`arNodeStack`): its identity, payload fields, and the children attached
so far, most recent first. -/
structure BuildFrame where
  id : Nat
  name : String
  arpath : String
  element : String
  file : String
  uuid : Option String
  childrenRev : List ArxmlNode

/-- Full parser state: the open-element stack, the active-parent node
stack (head is the top, the root frame sits at the bottom), the id
counter, and the captured-error flag (`parseError`). -/
structure PState where
  elementStack : List ElementFrame
  arStack : List BuildFrame
  nextId : Nat
  hasError : Bool

/-- The root node frame created at the start of `parseArxmlDocument`:
name `"/"`, empty `arpath`, element `AUTOSAR`. -/
def rootFrame (uri : String) : BuildFrame :=
  { id := 0, name := "/", arpath := "", element := "AUTOSAR", file := uri,
    uuid := none, childrenRev := [] }

/-- Initial parser state. -/
def initState (uri : String) : PState :=
  { elementStack := [], arStack := [rootFrame uri], nextId := 1,
    hasError := false }

/-- Convert a finished build frame into its node. -/
def buildNode (f : BuildFrame) : ArxmlNode :=
  .mk f.name f.arpath f.element f.file f.uuid f.childrenRev.reverse

/-- Attach a finished frame's node to the frame below it. -/
def attachTo (below top : BuildFrame) : BuildFrame :=
  { below with childrenRev := buildNode top :: below.childrenRev }

/-- `createNodeForFrame` from arxmlParser.ts, acting on the top
open-element frame: if that frame has no node yet and its accumulated
name text trims to something nonempty, create a node under the current
active parent, record its id on the frame, and push it as the new
active parent. -/
def createNodeForFrame (uri : String) (s : PState) : PState :=
  match s.elementStack with
  | [] => s
  | frame :: rest =>
    if frame.nodeId.isSome then s
    else
      match frame.shortName with
      | none => s
      | some sn =>
        if sn = "" then s
        else
          let trimmed := jsTrim sn
          if trimmed = "" then s
          else
            match s.arStack with
            | [] => s
            | parentNode :: _ =>
              let node : BuildFrame :=
                { id := s.nextId, name := trimmed,
                  arpath := parentNode.arpath ++ "/" ++ trimmed,
                  element := frame.tag, file := uri, uuid := frame.uuid,
                  childrenRev := [] }
              { s with
                elementStack := { frame with nodeId := some s.nextId } :: rest,
                arStack := node :: s.arStack,
                nextId := s.nextId + 1 }

/-- `parser.onopentag`: push a fresh open-element frame. -/
def onOpenTag (tag : String) (uuid : Option String) (s : PState) : PState :=
  { s with elementStack :=
      { tag := tag, uuid := uuid, nodeId := none, shortName := none }
        :: s.elementStack }

/-- `parser.ontext`: accumulate text on a name-tag frame, or forward it
to an enclosing name-tag frame from a name-text tag. -/
def onTextEvent (nameTags nameTextTags : List String) (value : String)
    (s : PState) : PState :=
  match s.elementStack with
  | [] => s
  | frame :: rest =>
    if frame.tag ∈ nameTags then
      { s with elementStack :=
          { frame with shortName := some ((frame.shortName.getD "") ++ value) }
            :: rest }
    else if nameTextTags ≠ [] ∧ frame.tag ∈ nameTextTags then
      match rest with
      | [] => s
      | parentFrame :: rest2 =>
        if parentFrame.tag ∈ nameTags then
          { s with elementStack :=
              frame ::
                { parentFrame with
                    shortName := some ((parentFrame.shortName.getD "") ++ value) }
                  :: rest2 }
        else s
    else s

/-- `parser.onclosetag`: pop the frame; a closing name tag hands its
trimmed text to the parent frame and triggers node creation there; an
ordinary closing element pops its node (if any, and if it is the current
active parent) off the active-parent stack, attaching it below. -/
def onCloseTag (uri : String) (nameTags : List String) (s : PState) : PState :=
  match s.elementStack with
  | [] => s
  | frame :: rest =>
    if frame.tag ∈ nameTags then
      match rest with
      | [] => { s with elementStack := [] }
      | parentFrame :: rest2 =>
        createNodeForFrame uri
          { s with elementStack :=
              { parentFrame with
                  shortName := some (jsTrim (frame.shortName.getD "")) }
                :: rest2 }
    else
      let s1 : PState := { s with elementStack := rest }
      match frame.nodeId with
      | none => s1
      | some nid =>
        match s1.arStack with
        | top :: below :: rest3 =>
          if top.id = nid then
            { s1 with arStack := attachTo below top :: rest3 }
          else s1
        | _ => s1

/-- One sax event.  (The `strict` option is consumed by the sax library
itself, configuring which errors it reports; the handlers never read
it.)  `onerror` records the error and resumes (`parser.resume()`). -/
def stepEvent (uri : String) (nameTags nameTextTags : List String)
    (s : PState) : SaxEvent → PState
  | .openTag tag uuid => onOpenTag tag uuid s
  | .text value => onTextEvent nameTags nameTextTags value s
  | .closeTag => onCloseTag uri nameTags s
  | .error => { s with hasError := true }

/-- Run the handlers over the whole event stream. -/
def runSax (uri : String) (nameTags nameTextTags : List String)
    (events : List SaxEvent) (s : PState) : PState :=
  events.foldl (stepEvent uri nameTags nameTextTags) s

/-- Collapse the remaining active-parent stack, attaching every
still-open node to its parent (in the source those nodes are already in
their parents' `children` by eager attachment at creation). -/
def finalizeFrom (top : BuildFrame) : List BuildFrame → ArxmlNode
  | [] => buildNode top
  | below :: rest => finalizeFrom (attachTo below top) rest

/-- The tree built by a parse, read off the final active-parent stack. -/
def finalizeStack : List BuildFrame → Option ArxmlNode
  | [] => none
  | top :: rest => some (finalizeFrom top rest)

/-- `parseArxmlDocument` from arxmlParser.ts over a sax event stream:
empty or whitespace-only text yields no root (`undefined`); a captured
parse error is rethrown after the stream completes; otherwise the built
tree is returned.  The `strict` flag only configures the external sax
tokenizer and is not read by any handler. -/
def parseArxmlDocument (uri : String) (strict : Bool)
    (nameTags nameTextTags : List String) (text : String)
    (events : List SaxEvent) : Except Unit (Option ArxmlNode) :=
  if jsTrim text = "" then .ok none
  else
    let final := runSax uri nameTags nameTextTags events (initState uri)
    if final.hasError then .error ()
    else .ok (finalizeStack final.arStack)

/-! ### The path invariant (C1) -/
mutual

/-- Every child's `arpath` is its parent's `arpath`, a separator, and the
child's `name`, recursively through the whole tree. -/
def pathInv : ArxmlNode → Bool
  | .mk _ a _ _ _ cs => pathInvList a cs

/-- `pathInv` for each tree in a list of children of a node whose
`arpath` is `parentPath`. -/
def pathInvList (parentPath : String) : List ArxmlNode → Bool
  | [] => true
  | c :: rest =>
    (decide (c.arpath = parentPath ++ "/" ++ c.name) && pathInv c)
      && pathInvList parentPath rest
end

/-- The pending children of a build frame satisfy the path invariant. -/
def frameOk (f : BuildFrame) : Bool := pathInvList f.arpath f.childrenRev

/-- Every frame on the active-parent stack has invariant-satisfying
pending children and an `arpath` extending the frame below it. -/
def chainOk : List BuildFrame → Bool
  | [] => true
  | [f] => frameOk f
  | a :: b :: rest =>
    (frameOk a && decide (a.arpath = b.arpath ++ "/" ++ a.name))
      && chainOk (b :: rest)

/-- The bottom frame of the stack (the document root) has empty `arpath`. -/
def RootAtBottom (l : List BuildFrame) : Prop :=
  ∀ f, lastElem? l = some f → f.arpath = ""

/-- The parser-state invariant that yields the path invariant. -/
def StackInv (s : PState) : Prop :=
  chainOk s.arStack = true ∧ s.arStack ≠ [] ∧ RootAtBottom s.arStack

/-- The event stream of Scenario A from the specification
(`AUTOSAR / AR-PACKAGES / AR-PACKAGE [SHORT-NAME Pkg] / ELEMENTS /
APPLICATION-SW-COMPONENT-TYPE UUID=1234 [SHORT-NAME ExampleComponent]`). -/
def scenarioAEvents : List SaxEvent :=
  [ .openTag "AUTOSAR" none, .openTag "AR-PACKAGES" none,
    .openTag "AR-PACKAGE" none,
    .openTag "SHORT-NAME" none, .text "Pkg", .closeTag,
    .openTag "ELEMENTS" none,
    .openTag "APPLICATION-SW-COMPONENT-TYPE" (some "1234"),
    .openTag "SHORT-NAME" none, .text "ExampleComponent", .closeTag,
    .closeTag, .closeTag, .closeTag, .closeTag, .closeTag ]

/-- The tree the parser builds for Scenario A. -/
def scenarioARoot : ArxmlNode :=
  .mk "/" "" "AUTOSAR" "file:///sample.arxml" none
    [ .mk "Pkg" "/Pkg" "AR-PACKAGE" "file:///sample.arxml" none
        [ .mk "ExampleComponent" "/Pkg/ExampleComponent"
            "APPLICATION-SW-COMPONENT-TYPE" "file:///sample.arxml"
            (some "1234") [] ] ]

/-- The sax events of one name-tag child carrying text `v`. -/
def nameTagChild (nt v : String) : List SaxEvent :=
  [ .openTag nt none, .text v, .closeTag ]

/-- Open element `el`, emit any number of name-tag children, close `el`. -/
def elementWithNames (el nt : String) (uuid : Option String)
    (texts : List String) : List SaxEvent :=
  .openTag el uuid :: (texts.bind (nameTagChild nt) ++ [.closeTag])

/-- Parser state inside element `el` before any node has been created
for its frame. -/
def sNoNode (uri el : String) (uuid : Option String) (sn : Option String) :
    PState :=
  { elementStack := [{ tag := el, uuid := uuid, nodeId := none, shortName := sn }],
    arStack := [rootFrame uri], nextId := 1, hasError := false }

/-- The node frame created for element `el` with name `t`. -/
def createdFrame (uri el : String) (uuid : Option String) (t : String) :
    BuildFrame :=
  { id := 1, name := t, arpath := (rootFrame uri).arpath ++ "/" ++ t,
    element := el, file := uri, uuid := uuid, childrenRev := [] }

/-- Parser state inside element `el` after its node (named `t`) exists. -/
def sWithNode (uri el : String) (uuid : Option String) (sn : Option String)
    (t : String) : PState :=
  { elementStack := [{ tag := el, uuid := uuid, nodeId := some 1, shortName := sn }],
    arStack := [createdFrame uri el uuid t, rootFrame uri], nextId := 2,
    hasError := false }

/-! ## The ARPATH index (treeProvider.ts)

`ArxmlTreeProvider.arpathIndex` maps each path variant to the nodes
stored under it; `docArpathKeys` records, per document, exactly the
variant keys that document contributed.  `indexDocument` walks the
document's tree with an explicit stack (`pop` from the end, `push` the
children), i.e. it visits a node and then its subtrees last-child-first;
the structural recursion below visits in that same order. -/
/-- The arpath index together with the per-document key record. -/
structure IndexState where
  arpathIndex : List (String × List ArxmlNode)
  docKeys : List (String × List String)

/-- The empty index. -/
def emptyIndex : IndexState := { arpathIndex := [], docKeys := [] }

/-- Index one node: for each of its path variants, record the key and
append the node to the variant's entry (`list.push(node)`). -/
def indexOne (n : ArxmlNode)
    (acc : List (String × List ArxmlNode) × List String) :
    List (String × List ArxmlNode) × List String :=
  (buildArpathVariants n.arpath).foldl
    (fun acc variant =>
      (jsMapSet acc.1 variant ((jsMapGet acc.1 variant).getD [] ++ [n]),
        setAdd acc.2 variant))
    acc

mutual

/-- Visit a node, then its subtrees (children last-first, matching the
stack traversal of `indexDocument`). -/
def indexNodeS : ArxmlNode →
    List (String × List ArxmlNode) × List String →
    List (String × List ArxmlNode) × List String
  | n, acc =>
    match n with
    | .mk _ _ _ _ _ children => indexForestS children (indexOne n acc)

/-- Visit a list of subtrees from its last element to its first. -/
def indexForestS : List ArxmlNode →
    (List (String × List ArxmlNode) × List String) →
    List (String × List ArxmlNode) × List String
  | [], acc => acc
  | c :: rest, acc => indexNodeS c (indexForestS rest acc)
end

/-- `indexDocument` from treeProvider.ts: no-op when the document has no
cache entry (`root = none`); otherwise add every node's path variants to
the index and record the set of contributed keys for the document. -/
def indexDocument (uri : String) (root : Option ArxmlNode) (s : IndexState) :
    IndexState :=
  match root with
  | none => s
  | some root =>
    let acc := indexNodeS root (s.arpathIndex, [])
    { arpathIndex := acc.1, docKeys := jsMapSet s.docKeys uri acc.2 }

/-- One iteration of the removal loop of `removeDocumentFromIndex`: drop
this document's nodes from the entry under `key`, deleting the entry
when nothing remains. -/
def removeKey (uri : String) (idx : List (String × List ArxmlNode))
    (key : String) : List (String × List ArxmlNode) :=
  match jsMapGet idx key with
  | none => idx
  | some nodes =>
    let filtered := nodes.filter (fun n => n.file ≠ uri)
    if filtered.length = 0 then jsMapDelete idx key else jsMapSet idx key filtered

/-- `removeDocumentFromIndex` from treeProvider.ts: using the
per-document key record, remove this document's nodes from exactly the
keys it contributed, then drop the record. -/
def removeDocumentFromIndex (uri : String) (s : IndexState) : IndexState :=
  match jsMapGet s.docKeys uri with
  | none => s
  | some keys =>
    { arpathIndex := keys.foldl (removeKey uri) s.arpathIndex,
      docKeys := jsMapDelete s.docKeys uri }

/-- The nodes stored under a key (empty when the key is absent). -/
def indexEntry (s : IndexState) (key : String) : List ArxmlNode :=
  (jsMapGet s.arpathIndex key).getD []

/-- Well-formedness: every node stored in the index is recorded in
`docKeys` — the key it sits under is among the keys of the node's own
document.  `indexDocument` establishes this for every document it
indexes. -/
def wfIndex (s : IndexState) : Bool :=
  s.arpathIndex.all (fun e =>
    e.2.all (fun n =>
      match jsMapGet s.docKeys n.file with
      | none => false
      | some ks => ks.contains e.1))

/-- The effect of `removeKey` on a single optional entry. -/
def filterRemove (uri : String) (o : Option (List ArxmlNode)) :
    Option (List ArxmlNode) :=
  match o with
  | none => none
  | some nodes =>
    let filtered := nodes.filter (fun n => n.file ≠ uri)
    if filtered.length = 0 then none else some filtered

/-- A two-document index state for the C4 witness; all nodes of each
document carry that document's uri. -/
def demoIndexState : IndexState :=
  indexDocument "file:///d1.arxml"
    (some (.mk "/" "" "AUTOSAR" "file:///d1.arxml" none
      [.mk "Pkg" "/Pkg" "AR-PACKAGE" "file:///d1.arxml" none
        [.mk "Comp" "/Pkg/Comp" "SW" "file:///d1.arxml" none []]]))
    (indexDocument "file:///d2.arxml"
      (some (.mk "/" "" "AUTOSAR" "file:///d2.arxml" none
        [.mk "Pkg" "/Pkg" "AR-PACKAGE" "file:///d2.arxml" none []]))
      emptyIndex)

/-! ## Tree filtering (treeProvider.ts)

`matchesPattern` dispatches on the filter mode; the `regex` and `glob`
modes invoke the external JavaScript `RegExp` engine (`parseRegex` /
`globToRegex` compile to host regexes), modelled here as opaque match
functions `regexTest` and `globTest` passed as parameters.  `contains`
is case-insensitive substring containment, modelled directly. -/
/-- ASCII lower-casing as applied by `toLowerCase` to the identifiers
involved here. -/
def jsLowerChar (c : Char) : Char :=
  if 'A' ≤ c ∧ c ≤ 'Z' then Char.ofNat (c.toNat + 32) else c

/-- `String.prototype.toLowerCase`. -/
def jsToLower (s : String) : String := ⟨s.data.map jsLowerChar⟩

/-- `TreeFilterMode` from treeProvider.ts. -/
inductive TreeFilterMode where
  | contains
  | regex
  | glob

/-- `TreeFilterConfig` from treeProvider.ts: one global mode, optional
per-field mode overrides, optional per-field pattern texts. -/
structure TreeFilterConfig where
  mode : TreeFilterMode
  nameMode : Option TreeFilterMode := none
  arpathMode : Option TreeFilterMode := none
  elementMode : Option TreeFilterMode := none
  name : Option String := none
  arpath : Option String := none
  element : Option String := none

/-- JavaScript truthiness of an optional string (`undefined` and `''`
are both falsy). -/
def isTruthy : Option String → Bool
  | none => false
  | some s => s ≠ ""

/-- The three filterable fields. -/
inductive FilterField where
  | nameF
  | arpathF
  | elementF

/-- `resolveFilterMode` from treeProvider.ts. -/
def resolveFilterMode (filter : TreeFilterConfig) (field : FilterField) :
    TreeFilterMode :=
  match field with
  | .nameF => filter.nameMode.getD filter.mode
  | .arpathF => filter.arpathMode.getD filter.mode
  | .elementF => filter.elementMode.getD filter.mode

/-- `matchesPattern` from treeProvider.ts; `regexTest p v` stands for
`parseRegex(p)?.test(v) ?? false` and `globTest p v` for
`globToRegex(p).test(v)`. -/
def matchesPattern (regexTest globTest : String → String → Bool)
    (value pattern : String) (mode : TreeFilterMode) : Bool :=
  if pattern = "" then true
  else
    match mode with
    | .contains => jsIncludes (jsToLower value) (jsToLower pattern)
    | .regex => regexTest pattern value
    | .glob => globTest pattern value

/-- `matchesTreeFilter` from treeProvider.ts: all configured fields must
match (AND semantics); an absent or empty field is unconstrained. -/
def matchesTreeFilter (regexTest globTest : String → String → Bool)
    (node : ArxmlNode) (filter : TreeFilterConfig) : Bool :=
  if isTruthy filter.name
      && !matchesPattern regexTest globTest node.name (filter.name.getD "")
          (resolveFilterMode filter .nameF) then false
  else if isTruthy filter.arpath
      && !matchesPattern regexTest globTest node.arpath (filter.arpath.getD "")
          (resolveFilterMode filter .arpathF) then false
  else if isTruthy filter.element
      && !matchesPattern regexTest globTest node.element (filter.element.getD "")
          (resolveFilterMode filter .elementF) then false
  else true

mutual

/-- `reparentTree` from treeProvider.ts: rebuild a subtree as fresh node
objects (the `parent` component is the structural position). -/
def reparentTree : ArxmlNode → ArxmlNode
  | .mk n a e f u cs => .mk n a e f u (reparentList cs)

/-- `reparentTree` mapped over a children list. -/
def reparentList : List ArxmlNode → List ArxmlNode
  | [] => []
  | c :: rest => reparentTree c :: reparentList rest
end

mutual

/-- `buildFilteredTreeWithFilter` from treeProvider.ts: filter the
children recursively; drop the node if it does not match and no child
survived, otherwise rebuild it with the surviving children reparented. -/
def buildFilteredTreeWithFilter (regexTest globTest : String → String → Bool)
    (filter : TreeFilterConfig) : ArxmlNode → Option ArxmlNode
  | .mk n a e f u cs =>
    let children := filteredChildren regexTest globTest filter cs
    if !matchesTreeFilter regexTest globTest (.mk n a e f u cs) filter
        && decide (children.length = 0) then
      none
    else
      some (.mk n a e f u (children.map reparentTree))

/-- The children results of `buildFilteredTreeWithFilter`, with the
dropped (`undefined`) ones filtered out (`.map(...).filter(Boolean)`). -/
def filteredChildren (regexTest globTest : String → String → Bool)
    (filter : TreeFilterConfig) : List ArxmlNode → List ArxmlNode
  | [] => []
  | c :: rest =>
    match buildFilteredTreeWithFilter regexTest globTest filter c with
    | some c' => c' :: filteredChildren regexTest globTest filter rest
    | none => filteredChildren regexTest globTest filter rest
end

mutual

/-- A node or some node in its subtree matches the filter. -/
def treeAnyMatches (regexTest globTest : String → String → Bool)
    (filter : TreeFilterConfig) : ArxmlNode → Bool
  | .mk n a e f u cs =>
    matchesTreeFilter regexTest globTest (.mk n a e f u cs) filter
      || forestAnyMatches regexTest globTest filter cs

/-- Some node of some tree in the list matches the filter. -/
def forestAnyMatches (regexTest globTest : String → String → Bool)
    (filter : TreeFilterConfig) : List ArxmlNode → Bool
  | [] => false
  | c :: rest =>
    treeAnyMatches regexTest globTest filter c
      || forestAnyMatches regexTest globTest filter rest
end

mutual

/-- The closed form of the projection: keep exactly the children whose
subtree contains a match, recursively. -/
def pruneKeep (regexTest globTest : String → String → Bool)
    (filter : TreeFilterConfig) : ArxmlNode → ArxmlNode
  | .mk n a e f u cs => .mk n a e f u (pruneForest regexTest globTest filter cs)

/-- `pruneKeep` over a children list, dropping matchless subtrees. -/
def pruneForest (regexTest globTest : String → String → Bool)
    (filter : TreeFilterConfig) : List ArxmlNode → List ArxmlNode
  | [] => []
  | c :: rest =>
    if treeAnyMatches regexTest globTest filter c then
      pruneKeep regexTest globTest filter c
        :: pruneForest regexTest globTest filter rest
    else pruneForest regexTest globTest filter rest
end

/-- Scenario D input: only the deeply nested grandchild
`ExampleComponent` matches a `{name: "Component", mode: contains}`
filter; `B` and its child are unrelated non-matching siblings. -/
def scenarioDTree : ArxmlNode :=
  .mk "Root" "" "AUTOSAR" "file:///d.arxml" none
    [ .mk "A" "/A" "AR-PACKAGE" "file:///d.arxml" none
        [ .mk "ExampleComponent" "/A/ExampleComponent" "SW"
            "file:///d.arxml" none [] ],
      .mk "B" "/B" "AR-PACKAGE" "file:///d.arxml" none
        [ .mk "Other" "/B/Other" "SW" "file:///d.arxml" none [] ] ]

/-- The Scenario D filter. -/
def scenarioDFilter : TreeFilterConfig :=
  { mode := .contains, name := some "Component" }

/-! ## The document cache re-parse batch (`parseDocuments`, treeProvider.ts)

A batch document carries the values `parseDocuments` reads from the
editor document and the surrounding provider state: its uri string, its
base filename (`path.basename(document.uri.fsPath)`), its version, the
resolved parse options (`resolveParseOptions(customViewByUri.get(uri))`),
and the outcome of the `parseArxmlDocument` call on its current text
(a root, `undefined`, or a raised error).  The state records the cache
(`parsedDocuments`), the returned changed-uri set, and — as an
observation of control flow — the uris for which the parser was
invoked. -/
/-- ASCII upper-casing as applied by `toUpperCase` to the tag names
involved here. -/
def jsUpperChar (c : Char) : Char :=
  if 'a' ≤ c ∧ c ≤ 'z' then Char.ofNat (c.toNat - 32) else c

/-- `String.prototype.toUpperCase`. -/
def jsToUpper (s : String) : String := ⟨s.data.map jsUpperChar⟩

/-- Insert into a sorted list of strings. -/
def insertSorted (a : String) : List String → List String
  | [] => [a]
  | b :: rest => if a ≤ b then a :: b :: rest else b :: insertSorted a rest

/-- `Array.prototype.sort()` on strings (default lexicographic order). -/
def sortStrings : List String → List String
  | [] => []
  | a :: rest => insertSorted a (sortStrings rest)

/-- `sameList` from treeProvider.ts: same length, and the upper-cased
sorted contents coincide pointwise. -/
def sameList (left right : List String) : Bool :=
  if left.length ≠ right.length then false
  else
    decide (sortStrings (left.map jsToUpper) = sortStrings (right.map jsToUpper))

/-- One slot of `parsedDocuments`. -/
structure CacheEntry where
  root : ArxmlNode
  version : Nat
  nameTags : List String
  nameTextTags : List String
  parseMode : String

/-- Resolved parse options (`resolveParseOptions` defaults: parseMode
`"strict"`, nameTags `["SHORT-NAME"]`, nameTextTags `[]`). -/
structure ParseOpts where
  parseMode : String
  nameTags : List String
  nameTextTags : List String

/-- The outcome of the `parseArxmlDocument` call for a document. -/
inductive ParseOutcome where
  | ok (root : ArxmlNode)
  | absent
  | err

/-- A raised parse error. -/
def isErr : ParseOutcome → Bool
  | .err => true
  | _ => false

/-- One document of a re-parse batch. -/
structure BatchDoc where
  uri : String
  base : String
  version : Nat
  opts : ParseOpts
  outcome : ParseOutcome

/-- State threaded through the `parseDocuments` loop. -/
structure BatchState where
  cache : List (String × CacheEntry)
  changed : List String
  parsedLog : List String

/-- The root's display name is overwritten with the document's base
filename (`root.name = path.basename(...)`; the parent reset is the
structural root position). -/
def renameRoot (root : ArxmlNode) (base : String) : ArxmlNode :=
  match root with
  | .mk _ a e f u cs => .mk base a e f u cs

/-- The cache-entry comparison of `parseDocuments`:
`(version, parseMode, nameTags, nameTextTags)`. -/
def keySame (e : CacheEntry) (d : BatchDoc) : Bool :=
  decide (e.version = d.version) && decide (e.parseMode = d.opts.parseMode)
    && sameList e.nameTags d.opts.nameTags
    && sameList e.nameTextTags d.opts.nameTextTags

/-- The body of one loop iteration past the comparison: invoke the
parser and store/remove accordingly. -/
def parseAndStore (s : BatchState) (d : BatchDoc) : BatchState :=
  let s1 : BatchState := { s with parsedLog := s.parsedLog ++ [d.uri] }
  match d.outcome with
  | .ok root =>
    { s1 with
      cache := jsMapSet s1.cache d.uri
        { root := renameRoot root d.base, version := d.version,
          nameTags := d.opts.nameTags, nameTextTags := d.opts.nameTextTags,
          parseMode := d.opts.parseMode },
      changed := setAdd s1.changed d.uri }
  | .absent =>
    if (jsMapGet s1.cache d.uri).isSome then
      { s1 with
        cache := jsMapDelete s1.cache d.uri,
        changed := setAdd s1.changed d.uri }
    else s1
  | .err => s1

/-- One iteration of the `parseDocuments` loop: skip (`continue`) when
the cached entry's comparison key is unchanged. -/
def processDoc (s : BatchState) (d : BatchDoc) : BatchState :=
  match jsMapGet s.cache d.uri with
  | some e => if keySame e d then s else parseAndStore s d
  | none => parseAndStore s d

/-- `parseDocuments` from treeProvider.ts over a batch. -/
def parseDocuments (documents : List BatchDoc)
    (cache : List (String × CacheEntry)) : BatchState :=
  documents.foldl processDoc { cache := cache, changed := [], parsedLog := [] }

/-- The document's cached comparison key differs from the current one
(a missing entry differs from everything). -/
def keyDiffers (cache : List (String × CacheEntry)) (d : BatchDoc) : Bool :=
  match jsMapGet cache d.uri with
  | none => true
  | some e => !keySame e d

/-- A cached entry used by the batch witnesses. -/
def demoEntry : CacheEntry :=
  { root := .mk "old.arxml" "" "AUTOSAR" "file:///old.arxml" none [],
    version := 1, nameTags := ["SHORT-NAME"], nameTextTags := [],
    parseMode := "strict" }

/-- Default resolved options. -/
def demoOpts : ParseOpts :=
  { parseMode := "strict", nameTags := ["SHORT-NAME"], nameTextTags := [] }

/-- A cache holding entries for two documents. -/
def demoCache : List (String × CacheEntry) :=
  [("file:///same.arxml", demoEntry), ("file:///gone.arxml", demoEntry)]

/-- A batch document whose comparison key equals its cache entry. -/
def docSame : BatchDoc :=
  { uri := "file:///same.arxml", base := "same.arxml", version := 1,
    opts := demoOpts,
    outcome := .ok (.mk "/" "" "AUTOSAR" "file:///same.arxml" none []) }

/-- An uncached batch document that parses successfully. -/
def docNew : BatchDoc :=
  { uri := "file:///new.arxml", base := "new.arxml", version := 3,
    opts := demoOpts,
    outcome := .ok (.mk "/" "" "AUTOSAR" "file:///new.arxml" none []) }

/-- A batch document whose parse raises. -/
def docErr : BatchDoc :=
  { uri := "file:///bad.arxml", base := "bad.arxml", version := 2,
    opts := demoOpts, outcome := .err }

/-- A previously cached batch document whose new text parses to absent. -/
def docGone : BatchDoc :=
  { uri := "file:///gone.arxml", base := "gone.arxml", version := 2,
    opts := demoOpts, outcome := .absent }

theorem jsMapGet_set {β : Type} (m : List (String × β)) (k k' : String) (v : β) :
    jsMapGet (jsMapSet m k v) k' = if k' = k then some v else jsMapGet m k' := by
  induction m with
  | nil =>
    by_cases h : k' = k <;> simp [jsMapSet, jsMapGet, h]
    exact fun h' => absurd h'.symm h
  | cons e rest ih =>
    by_cases hek : e.1 = k
    · by_cases h : k' = k
      · subst h; simp [jsMapSet, jsMapGet, hek]
      · have h2 : ¬ (k = k') := fun hh => h hh.symm
        simp [jsMapSet, jsMapGet, hek, h, h2]
    · by_cases hek' : e.1 = k'
      · have h : ¬ (k' = k) := fun h => hek (hek'.trans h)
        simp [jsMapSet, jsMapGet, hek, hek', h]
      · simp [jsMapSet, jsMapGet, hek, hek', ih]

theorem jsMapGet_delete {β : Type} (m : List (String × β)) (k k' : String) :
    jsMapGet (jsMapDelete m k) k' = if k' = k then none else jsMapGet m k' := by
  induction m with
  | nil => by_cases h : k' = k <;> simp [jsMapDelete, jsMapGet, h]
  | cons e rest ih =>
    by_cases hek : e.1 = k
    · by_cases h : k' = k
      · subst h; simpa [jsMapDelete, jsMapGet, hek] using ih
      · have h2 : ¬ (k = k') := fun hh => h hh.symm
        simp [jsMapDelete, jsMapGet, hek, h, h2, ih]
    · by_cases hek' : e.1 = k'
      · have h : ¬ (k' = k) := fun h => hek (hek'.trans h)
        simp [jsMapDelete, jsMapGet, hek, hek', h]
      · simp [jsMapDelete, jsMapGet, hek, hek', ih]

theorem setAdd_mem {α : Type} [DecidableEq α] (l : List α) (s t : α) :
    t ∈ setAdd l s ↔ t ∈ l ∨ t = s := by
  unfold setAdd
  by_cases h : s ∈ l
  · simp only [h, if_true]
    constructor
    · exact Or.inl
    · rintro (ht | rfl) <;> [exact ht; exact h]
  · simp [h]

theorem mem_setAdd_of_mem {α : Type} [DecidableEq α] (l : List α) (s t : α) (h : t ∈ l) :
    t ∈ setAdd l s := (setAdd_mem l s t).2 (Or.inl h)

theorem dropWhile_eq_self_of_head (p : Char → Bool) (l : List Char)
    (h : ∀ a, l.head? = some a → p a = false) : l.dropWhile p = l := by
  cases l with
  | nil => rfl
  | cons a as =>
    have := h a rfl
    simp [List.dropWhile_cons, this]

theorem lastElem?_eq_getLast? {α : Type} (l : List α) : lastElem? l = l.getLast? := by
  induction l with
  | nil => rfl
  | cons a as ih =>
    cases as with
    | nil => rfl
    | cons b bs => rw [lastElem?, ih, List.getLast?_cons_cons]

theorem collapseGo_true_head (l : List Char) :
    (collapseGo true l).head? ≠ some '/' := by
  induction l with
  | nil => simp [collapseGo]
  | cons c rest ih =>
    by_cases hc : c = '/'
    · simpa [collapseGo, hc] using ih
    · simp [collapseGo, hc]

theorem collapseGo_chain (l : List Char) : ∀ b, NoDup2 (collapseGo b l) := by
  induction l with
  | nil => intro b; simp [collapseGo, NoDup2]
  | cons c rest ih =>
    intro b
    by_cases hc : c = '/'
    · cases b with
      | true => simpa [collapseGo, hc] using ih true
      | false =>
        have : collapseGo false (c :: rest) = '/' :: collapseGo true rest := by
          simp [collapseGo, hc]
        rw [this]
        refine List.chain'_cons'.2 ⟨?_, ih true⟩
        intro y hy
        right
        intro hy'
        exact collapseGo_true_head rest (by rw [hy, hy'])
    · have : collapseGo b (c :: rest) = c :: collapseGo false rest := by
        simp [collapseGo, hc]
      rw [this]
      refine List.chain'_cons'.2 ⟨?_, ih false⟩
      intro y _
      exact Or.inl hc

theorem collapseGo_eq_self (l : List Char) :
    ∀ b, NoDup2 l → (b = true → l.head? ≠ some '/') → collapseGo b l = l := by
  induction l with
  | nil => intro b _ _; rfl
  | cons c rest ih =>
    intro b hnd hb
    have htail : NoDup2 rest := (List.chain'_cons'.1 hnd).2
    by_cases hc : c = '/'
    · cases b with
      | true => exact absurd (by rw [hc]; rfl) (hb rfl)
      | false =>
        have hresthead : rest.head? ≠ some '/' := by
          intro hhd
          cases rest with
          | nil => simp at hhd
          | cons d ds =>
            simp only [List.head?_cons, Option.some.injEq] at hhd
            rcases (List.chain'_cons'.1 hnd).1 d rfl with h | h
            · exact h hc
            · exact h hhd
        have hstep : collapseGo false (c :: rest) = '/' :: collapseGo true rest := by
          simp [collapseGo, hc]
        rw [hstep, hc]
        rw [ih true htail (fun _ => hresthead)]
    · have hstep : collapseGo b (c :: rest) = c :: collapseGo false rest := by
        simp [collapseGo, hc]
      rw [hstep, ih false htail (by simp)]

theorem collapseGo_all (p : Char → Bool) (hp : p '/' = true) (l : List Char) :
    ∀ b, l.all p = true → (collapseGo b l).all p = true := by
  induction l with
  | nil => intro b _; rfl
  | cons c rest ih =>
    intro b hall
    rw [List.all_cons, Bool.and_eq_true] at hall
    by_cases hc : c = '/'
    · cases b with
      | true => simpa [collapseGo, hc] using ih true hall.2
      | false =>
        have hstep : collapseGo false (c :: rest) = '/' :: collapseGo true rest := by
          simp [collapseGo, hc]
        rw [hstep, List.all_cons, hp, Bool.true_and]
        exact ih true hall.2
    · have hstep : collapseGo b (c :: rest) = c :: collapseGo false rest := by
        simp [collapseGo, hc]
      rw [hstep, List.all_cons, hall.1, Bool.true_and]
      exact ih false hall.2

theorem head?_dropLast_of_lt (l : List Char) (h : 1 < l.length) :
    l.dropLast.head? = l.head? := by
  match l with
  | [] => simp at h
  | [a] => simp at h
  | a :: b :: rest => simp [List.dropLast_cons₂]

theorem normShape_normalizeL (l : List Char) (hl : l ≠ []) :
    NormShape (normalizeL l) := by
  rw [normalizeL]
  simp only [hl, if_false]
  set c := collapseSlashes (stripCC (jsTrimL l)) with hcdef
  -- facts about `c`
  have hcnd : NoDup2 c := collapseGo_chain _ false
  have hcall : c.all (fun ch => !isCC ch) = true := by
    apply collapseGo_all _ (by rfl)
    rw [List.all_eq_true]
    intro ch hch
    exact (List.mem_filter.1 hch).2
  -- facts about `w`
  set w := if c.head? = some '/' then c else '/' :: c with hwdef
  have hwh : w.head? = some '/' := by
    rw [hwdef]
    by_cases h : c.head? = some '/'
    · rw [if_pos h]; exact h
    · rw [if_neg h]; rfl
  have hwnd : NoDup2 w := by
    rw [hwdef]
    by_cases h : c.head? = some '/'
    · rw [if_pos h]; exact hcnd
    · rw [if_neg h]
      refine List.chain'_cons'.2 ⟨?_, hcnd⟩
      intro y hy
      right
      intro hy'
      exact h (by rw [hy, hy'])
  have hwall : w.all (fun ch => !isCC ch) = true := by
    rw [hwdef]
    by_cases h : c.head? = some '/'
    · rw [if_pos h]; exact hcall
    · rw [if_neg h, List.all_cons, hcall]
      rfl
  clear_value w
  clear hcdef hcnd hcall
  -- the final trailing-separator step
  by_cases hfin : lastElem? w = some '/' ∧ 1 < w.length
  · rw [if_pos hfin]
    have hwne : w ≠ [] := by
      intro h
      rw [h] at hfin
      simp [lastElem?] at hfin
    have hsplit := List.dropLast_append_getLast hwne
    have hdnd : NoDup2 w.dropLast := by
      unfold NoDup2 at hwnd ⊢
      rw [← hsplit, List.chain'_append] at hwnd
      exact hwnd.1
    refine ⟨?_, hdnd, ?_, ?_⟩
    · rw [head?_dropLast_of_lt _ hfin.2]
      exact hwh
    · rw [List.all_eq_true] at hwall ⊢
      intro ch hch
      exact hwall ch (List.dropLast_subset _ hch)
    · intro hlast
      exfalso
      have hlastw : w.getLast hwne = '/' := by
        have := hfin.1
        rw [lastElem?_eq_getLast?, List.getLast?_eq_getLast _ hwne] at this
        exact Option.some.inj this
      have hdl : (w.dropLast).getLast? = some '/' := by
        rw [← lastElem?_eq_getLast?]
        exact hlast
      unfold NoDup2 at hwnd
      rw [← hsplit, List.chain'_append] at hwnd
      have hcross := hwnd.2.2 '/' (Option.mem_def.2 hdl) (w.getLast hwne) (by simp)
      rcases hcross with hq | hq
      · exact hq rfl
      · exact hq hlastw
  · rw [if_neg hfin]
    refine ⟨hwh, hwnd, hwall, ?_⟩
    intro hlast
    by_contra hlen
    push_neg at hlen
    exact hfin ⟨hlast, hlen⟩

theorem jsTrimL_eq_self (x : List Char) (hhead : ∀ a, x.head? = some a → jsWs a = false)
    (hlast : ∀ a, x.getLast? = some a → jsWs a = false) : jsTrimL x = x := by
  unfold jsTrimL dropEndWs
  rw [dropWhile_eq_self_of_head _ _ hhead]
  rw [dropWhile_eq_self_of_head _ _ (fun a ha => hlast a (by rwa [List.head?_reverse] at ha))]
  exact List.reverse_reverse x

theorem stripCC_eq_self (x : List Char) (h : x.all (fun ch => !isCC ch) = true) :
    stripCC x = x := by
  unfold stripCC
  rw [List.filter_eq_self]
  rw [List.all_eq_true] at h
  exact h

theorem normalizeL_idem (l : List Char)
    (h : ∀ a, lastElem? (normalizeL l) = some a → jsWs a = false) :
    normalizeL (normalizeL l) = normalizeL l := by
  by_cases hl : l = []
  · rw [hl]
    rfl
  obtain ⟨hhead, hnd, hall, htrail⟩ := normShape_normalizeL l hl
  set x := normalizeL l with hx
  have hxne : x ≠ [] := by
    intro hn
    rw [hn] at hhead
    simp at hhead
  rw [normalizeL, if_neg hxne]
  have hslashws : jsWs '/' = false := by decide
  have htrim : jsTrimL x = x := by
    apply jsTrimL_eq_self
    · intro a ha
      rw [hhead] at ha
      rw [← Option.some.inj ha]
      exact hslashws
    · intro a ha
      apply h a
      rw [lastElem?_eq_getLast?]
      exact ha
  have hstrip : stripCC x = x := stripCC_eq_self x hall
  have hcollapse : collapseSlashes x = x :=
    collapseGo_eq_self x false hnd (by simp)
  rw [htrim, hstrip]
  simp only [hcollapse, hhead, eq_self_iff_true, if_true]
  rw [if_neg]
  rintro ⟨h1, h2⟩
  have := htrail h1
  omega

/-- C5, counterexample.  The path `"a /"` normalizes to `"/a "`: the
trailing-separator strip exposes a whitespace character that a second
normalization then trims away, so normalization is not idempotent. -/
theorem normalizeArpath_not_idempotent_cex :
    normalizeArpath (normalizeArpath "a /") ≠ normalizeArpath "a /" := by decide

/-- C5 (amended): `normalizeArpath` (trim; strip carriage control; collapse
repeated separators; ensure a leading separator; strip one trailing
separator when longer than one character) is idempotent on every path
whose normalized form does not end in a whitespace character; in general
stripping the trailing separator can expose trailing whitespace that only
the second normalization trims. -/
theorem normalizeArpath_idem_of_no_trailing_ws (p : String)
    (h : Option.all (fun c => !jsWs c) (lastElem? (normalizeArpath p).data) = true) :
    normalizeArpath (normalizeArpath p) = normalizeArpath p := by
  show (⟨normalizeL (normalizeL p.data)⟩ : String) = ⟨normalizeL p.data⟩
  congr 1
  apply normalizeL_idem
  intro a ha
  have hx : lastElem? (normalizeArpath p).data = some a := ha
  rw [hx] at h
  simpa using h

/-- Witness for C5 (amended) at the concrete path `"/Pkg/Sub"`. -/
theorem normalizeArpath_idem_witness :
    Option.all (fun c => !jsWs c) (lastElem? (normalizeArpath "/Pkg/Sub").data) = true ∧
      normalizeArpath (normalizeArpath "/Pkg/Sub") = normalizeArpath "/Pkg/Sub" :=
  ⟨by decide, normalizeArpath_idem_of_no_trailing_ws "/Pkg/Sub" (by decide)⟩

/-- C3: for every path, `buildArpathVariants` produces exactly the variant
set described by the specification — the normalized absolute path, the
same without its leading slash, and, for paths of more than one segment,
both of those with the first segment stripped — and in particular the
query `"Pkg/ExampleComponent"` yields exactly the same variants as
`"/Pkg/ExampleComponent"`, so both resolve to the same indexed node. -/
theorem buildArpathVariants_matches_spec :
    (∀ (p s : String), s ∈ buildArpathVariants p ↔ s ∈ specVariantSet p) ∧
      buildArpathVariants "Pkg/ExampleComponent" =
        buildArpathVariants "/Pkg/ExampleComponent" := by
  refine ⟨?_, by decide⟩
  intro p s
  unfold buildArpathVariants buildArpathVariantsL specVariantSet
  by_cases h : 1 < ((splitSlashes (normalizeL p.data)).filter (fun s => s ≠ [])).length
  · simp only [h, if_true, List.mem_map, setAdd_mem, List.not_mem_nil, false_or,
      List.mem_cons, List.not_mem_nil, or_false, List.drop_succ_cons, List.drop_zero]
    constructor
    · rintro ⟨a, ha, rfl⟩
      rcases ha with ((rfl | rfl) | rfl) | rfl <;> tauto
    · rintro (rfl | rfl | rfl | rfl)
      · exact ⟨_, by tauto, rfl⟩
      · exact ⟨_, by tauto, rfl⟩
      · exact ⟨_, by tauto, rfl⟩
      · exact ⟨_, by tauto, rfl⟩
  · simp only [h, if_false, List.mem_map, setAdd_mem, List.not_mem_nil, false_or,
      List.mem_cons, List.not_mem_nil, or_false]
    constructor
    · rintro ⟨a, ha, rfl⟩
      rcases ha with rfl | rfl <;> tauto
    · rintro (rfl | rfl)
      · exact ⟨_, by tauto, rfl⟩
      · exact ⟨_, by tauto, rfl⟩

theorem pathInvList_eq_all (p : String) (l : List ArxmlNode) :
    pathInvList p l
      = l.all (fun c => decide (c.arpath = p ++ "/" ++ c.name) && pathInv c) := by
  induction l with
  | nil => rfl
  | cons c rest ih => rw [pathInvList, List.all_cons, ih]

theorem pathInvList_reverse (p : String) (l : List ArxmlNode) :
    pathInvList p l.reverse = pathInvList p l := by
  rw [pathInvList_eq_all, pathInvList_eq_all, List.all_reverse]

theorem pathInv_buildNode (f : BuildFrame) (h : frameOk f = true) :
    pathInv (buildNode f) = true := by
  unfold buildNode
  rw [pathInv, pathInvList_reverse]
  exact h

theorem buildNode_arpath (f : BuildFrame) : (buildNode f).arpath = f.arpath := rfl

theorem buildNode_name (f : BuildFrame) : (buildNode f).name = f.name := rfl

theorem chainOk_head (a : BuildFrame) (rest : List BuildFrame)
    (h : chainOk (a :: rest) = true) : frameOk a = true := by
  cases rest with
  | nil => exact h
  | cons b rest2 =>
    rw [chainOk, Bool.and_eq_true, Bool.and_eq_true] at h
    exact h.1.1

theorem chainOk_tail (a : BuildFrame) (rest : List BuildFrame)
    (h : chainOk (a :: rest) = true) : chainOk rest = true := by
  cases rest with
  | nil => rfl
  | cons b rest2 =>
    rw [chainOk, Bool.and_eq_true] at h
    exact h.2

theorem chainOk_attach (top below : BuildFrame) (rest : List BuildFrame)
    (h : chainOk (top :: below :: rest) = true) :
    chainOk (attachTo below top :: rest) = true := by
  rw [chainOk, Bool.and_eq_true, Bool.and_eq_true] at h
  obtain ⟨⟨htop, hlink⟩, hbelow⟩ := h
  have hfattach : frameOk (attachTo below top) = true := by
    unfold frameOk attachTo
    rw [pathInvList]
    simp only [Bool.and_eq_true]
    refine ⟨⟨?_, ?_⟩, ?_⟩
    · rw [buildNode_arpath, buildNode_name]
      exact hlink
    · exact pathInv_buildNode top htop
    · exact chainOk_head below rest hbelow
  cases rest with
  | nil => exact hfattach
  | cons c rest2 =>
    rw [chainOk, Bool.and_eq_true, Bool.and_eq_true] at hbelow ⊢
    refine ⟨⟨hfattach, ?_⟩, hbelow.2⟩
    exact hbelow.1.2

theorem lastElem?_cons_of_ne_nil {α : Type} (a : α) (l : List α) (h : l ≠ []) :
    lastElem? (a :: l) = lastElem? l := by
  cases l with
  | nil => exact absurd rfl h
  | cons b rest => rfl

theorem rootAtBottom_attach (top below : BuildFrame) (rest : List BuildFrame)
    (h : RootAtBottom (top :: below :: rest)) :
    RootAtBottom (attachTo below top :: rest) := by
  cases rest with
  | nil =>
    intro f hf
    have heq : f = attachTo below top := by
      have := hf
      simp only [lastElem?] at this
      exact (Option.some.inj this).symm
    subst heq
    exact h below rfl
  | cons c rest2 =>
    intro f hf
    apply h f
    rw [lastElem?_cons_of_ne_nil _ _ (by simp),
        lastElem?_cons_of_ne_nil _ _ (by simp)]
    rw [lastElem?_cons_of_ne_nil _ _ (by simp)] at hf
    exact hf

theorem stackInv_createNode (uri : String) (s : PState) (h : StackInv s) :
    StackInv (createNodeForFrame uri s) := by
  unfold createNodeForFrame
  obtain ⟨hchain, hne, hroot⟩ := h
  cases hes : s.elementStack with
  | nil => exact ⟨hchain, hne, hroot⟩
  | cons frame rest =>
    by_cases h1 : frame.nodeId.isSome
    · simp only [h1, if_true]
      exact ⟨hchain, hne, hroot⟩
    simp only [h1, if_false]
    cases hsn : frame.shortName with
    | none => exact ⟨hchain, hne, hroot⟩
    | some sn =>
      by_cases h2 : sn = ""
      · simp only [h2, if_true]
        exact ⟨hchain, hne, hroot⟩
      simp only [h2, if_false]
      by_cases h3 : jsTrim sn = ""
      · simp only [h3, if_true]
        exact ⟨hchain, hne, hroot⟩
      simp only [h3, if_false]
      cases har : s.arStack with
      | nil => exact ⟨hchain, hne, hroot⟩
      | cons parentNode arRest =>
        refine ⟨?_, by simp, ?_⟩
        · show chainOk (_ :: parentNode :: arRest) = true
          rw [har] at hchain
          cases arRest with
          | nil =>
            rw [chainOk]
            simp only [Bool.and_eq_true]
            exact ⟨⟨rfl, by simp⟩, hchain⟩
          | cons q qrest =>
            rw [chainOk]
            simp only [Bool.and_eq_true]
            exact ⟨⟨rfl, by simp⟩, hchain⟩
        · show RootAtBottom (_ :: parentNode :: arRest)
          intro f hf
          apply hroot f
          rw [har]
          rw [lastElem?_cons_of_ne_nil _ _ (by simp)] at hf
          exact hf

theorem onTextEvent_arStack (nameTags nameTextTags : List String) (v : String)
    (s : PState) : (onTextEvent nameTags nameTextTags v s).arStack = s.arStack := by
  unfold onTextEvent
  split
  · rfl
  · split
    · rfl
    · split
      · split
        · rfl
        · split
          · rfl
          · rfl
      · rfl

theorem stackInv_step (uri : String) (nameTags nameTextTags : List String)
    (s : PState) (e : SaxEvent) (h : StackInv s) :
    StackInv (stepEvent uri nameTags nameTextTags s e) := by
  cases e with
  | openTag tag uuid => exact h
  | error => exact h
  | text v =>
    show StackInv (onTextEvent nameTags nameTextTags v s)
    unfold StackInv RootAtBottom at h ⊢
    rw [onTextEvent_arStack]
    exact h
  | closeTag =>
    show StackInv (onCloseTag uri nameTags s)
    unfold onCloseTag
    split
    · exact h
    · split
      · split
        · exact h
        · exact stackInv_createNode uri _ h
      · split
        · exact h
        · dsimp only
          split
          · split
            · rename_i top below rest3 heq hid
              obtain ⟨hchain, hne, hroot⟩ := h
              refine ⟨?_, by simp, ?_⟩
              · exact chainOk_attach top below rest3 (heq ▸ hchain)
              · exact rootAtBottom_attach top below rest3 (heq ▸ hroot)
            · exact h
          · exact h

theorem stackInv_run (uri : String) (nameTags nameTextTags : List String)
    (events : List SaxEvent) (s : PState) (h : StackInv s) :
    StackInv (runSax uri nameTags nameTextTags events s) := by
  induction events generalizing s with
  | nil => exact h
  | cons e rest ih =>
    exact ih _ (stackInv_step uri nameTags nameTextTags s e h)

theorem stackInv_init (uri : String) : StackInv (initState uri) := by
  refine ⟨rfl, by simp [initState], ?_⟩
  intro f hf
  have : f = rootFrame uri := by
    simp only [initState, lastElem?] at hf
    exact (Option.some.inj hf).symm
  rw [this]
  rfl

theorem finalizeFrom_ok (rest : List BuildFrame) : ∀ top : BuildFrame,
    chainOk (top :: rest) = true →
    pathInv (finalizeFrom top rest) = true ∧
      (∀ f, lastElem? (top :: rest) = some f →
        (finalizeFrom top rest).arpath = f.arpath) := by
  induction rest with
  | nil =>
    intro top hchain
    refine ⟨pathInv_buildNode top hchain, ?_⟩
    intro f hf
    have : f = top := by
      simp only [lastElem?] at hf
      exact (Option.some.inj hf).symm
    rw [this]
    rfl
  | cons below rest2 ih =>
    intro top hchain
    have hattach := chainOk_attach top below rest2 hchain
    obtain ⟨hinv, harp⟩ := ih (attachTo below top) hattach
    refine ⟨hinv, ?_⟩
    intro f hf
    cases rest2 with
    | nil =>
      have hfb : below = f := by
        simp only [lastElem?] at hf
        exact Option.some.inj hf
      show (finalizeFrom (attachTo below top) []).arpath = f.arpath
      rw [harp (attachTo below top) (by simp [lastElem?]), ← hfb]
      rfl
    | cons c rest3 =>
      apply harp f
      rw [lastElem?_cons_of_ne_nil _ _ (by simp)]
      rw [lastElem?_cons_of_ne_nil _ _ (by simp),
          lastElem?_cons_of_ne_nil _ _ (by simp)] at hf
      exact hf

/-- C1: every `ArxmlNode` tree produced by `parseArxmlDocument` — for any
event stream, in particular arbitrarily nested valid input — satisfies
the path invariant: each node's `arpath` equals its parent's `arpath`
followed by `"/"` and the node's `name`, and the root's path is empty. -/
theorem parser_path_invariant (uri : String) (strict : Bool)
    (nameTags nameTextTags : List String) (text : String)
    (events : List SaxEvent) (root : ArxmlNode)
    (h : parseArxmlDocument uri strict nameTags nameTextTags text events
          = .ok (some root)) :
    pathInv root = true ∧ root.arpath = "" := by
  unfold parseArxmlDocument at h
  by_cases ht : jsTrim text = ""
  · rw [if_pos ht] at h
    simp at h
  rw [if_neg ht] at h
  dsimp only at h
  set final := runSax uri nameTags nameTextTags events (initState uri) with hfinal
  by_cases he : final.hasError = true
  · rw [if_pos he] at h
    cases h
  rw [if_neg he] at h
  have hinv : StackInv final :=
    stackInv_run uri nameTags nameTextTags events (initState uri) (stackInv_init uri)
  obtain ⟨hchain, hne, hroot⟩ := hinv
  cases har : final.arStack with
  | nil => exact absurd har hne
  | cons top rest =>
    rw [har] at h
    simp only [finalizeStack, Except.ok.injEq, Option.some.injEq] at h
    obtain ⟨hinv, harp⟩ := finalizeFrom_ok rest top (har ▸ hchain)
    have hlast : ∃ f, lastElem? (top :: rest) = some f := by
      rw [lastElem?_eq_getLast?]
      exact ⟨_, List.getLast?_eq_getLast _ (by simp)⟩
    obtain ⟨f, hf⟩ := hlast
    constructor
    · rw [← h]
      exact hinv
    · rw [← h, harp f hf]
      exact hroot f (har ▸ hf)

/-- Witness for C1 at the Scenario A input. -/
theorem parser_path_invariant_witness :
    pathInv scenarioARoot = true ∧ scenarioARoot.arpath = "" :=
  parser_path_invariant "file:///sample.arxml" true ["SHORT-NAME"] []
    "<AUTOSAR>" scenarioAEvents scenarioARoot (by rfl)

/-! ### Error capture and resumption (C2)

`onerror` only records the error and resumes; no handler reads the flag,
so a run with an error event interleaved builds exactly the same stacks
as the run without it, and `parseArxmlDocument` rethrows at the end
whatever the mode. -/
theorem createNodeForFrame_hasErr (uri : String) (s : PState) (b : Bool) :
    createNodeForFrame uri { s with hasError := b }
      = { createNodeForFrame uri s with hasError := b } := by
  obtain ⟨es, ar, ni, herr⟩ := s
  unfold createNodeForFrame
  dsimp only
  cases es with
  | nil => rfl
  | cons frame rest =>
    dsimp only
    by_cases h1 : frame.nodeId.isSome
    · simp [h1]
    simp only [h1, if_false]
    cases frame.shortName with
    | none => rfl
    | some sn =>
      by_cases h2 : sn = ""
      · simp [h2]
      simp only [h2, if_false]
      by_cases h3 : jsTrim sn = ""
      · simp [h3]
      simp only [h3, if_false]
      cases ar with
      | nil => rfl
      | cons p r => rfl

theorem onOpenTag_hasErr (tag : String) (uuid : Option String) (s : PState) (b : Bool) :
    onOpenTag tag uuid { s with hasError := b }
      = { onOpenTag tag uuid s with hasError := b } := rfl

theorem onTextEvent_hasErr (nameTags nameTextTags : List String) (v : String)
    (s : PState) (b : Bool) :
    onTextEvent nameTags nameTextTags v { s with hasError := b }
      = { onTextEvent nameTags nameTextTags v s with hasError := b } := by
  obtain ⟨es, ar, ni, herr⟩ := s
  unfold onTextEvent
  dsimp only
  cases es with
  | nil => rfl
  | cons frame rest =>
    dsimp only
    by_cases h1 : frame.tag ∈ nameTags
    · simp [h1]
    simp only [h1, if_false]
    by_cases h2 : nameTextTags ≠ [] ∧ frame.tag ∈ nameTextTags
    · simp only [if_pos h2]
      cases rest with
      | nil => rfl
      | cons pf rest2 =>
        by_cases h3 : pf.tag ∈ nameTags
        · simp [h3]
        · simp [h3]
    · simp only [if_neg h2]

theorem onCloseTag_hasErr (uri : String) (nameTags : List String)
    (s : PState) (b : Bool) :
    onCloseTag uri nameTags { s with hasError := b }
      = { onCloseTag uri nameTags s with hasError := b } := by
  obtain ⟨es, ar, ni, herr⟩ := s
  unfold onCloseTag
  dsimp only
  cases es with
  | nil => rfl
  | cons frame rest =>
    dsimp only
    by_cases h1 : frame.tag ∈ nameTags
    · simp only [h1, if_true]
      cases rest with
      | nil => rfl
      | cons pf rest2 =>
        exact createNodeForFrame_hasErr uri
          { elementStack :=
              { pf with shortName := some (jsTrim (frame.shortName.getD "")) } :: rest2,
            arStack := ar, nextId := ni, hasError := herr } b
    · simp only [h1, if_false]
      cases frame.nodeId with
      | none => rfl
      | some nid =>
        cases ar with
        | nil => rfl
        | cons top tl =>
          cases tl with
          | nil => rfl
          | cons below rest3 =>
            by_cases h2 : top.id = nid
            · simp [h2]
            · simp [h2]

theorem stepEvent_hasErr (uri : String) (nameTags nameTextTags : List String)
    (s : PState) (e : SaxEvent) :
    stepEvent uri nameTags nameTextTags { s with hasError := true } e
      = { stepEvent uri nameTags nameTextTags s e with hasError := true } := by
  cases e with
  | openTag tag uuid => rfl
  | text v => exact onTextEvent_hasErr nameTags nameTextTags v s true
  | closeTag => exact onCloseTag_hasErr uri nameTags s true
  | error => rfl

theorem runSax_hasErr (uri : String) (nameTags nameTextTags : List String)
    (events : List SaxEvent) (s : PState) :
    runSax uri nameTags nameTextTags events { s with hasError := true }
      = { runSax uri nameTags nameTextTags events s with hasError := true } := by
  induction events generalizing s with
  | nil => rfl
  | cons e rest ih =>
    show runSax uri nameTags nameTextTags rest
        (stepEvent uri nameTags nameTextTags { s with hasError := true } e) = _
    rw [stepEvent_hasErr, ih]
    rfl

theorem runSax_error_split (uri : String) (nameTags nameTextTags : List String)
    (es1 es2 : List SaxEvent) (s : PState) :
    runSax uri nameTags nameTextTags (es1 ++ SaxEvent.error :: es2) s
      = { runSax uri nameTags nameTextTags (es1 ++ es2) s with hasError := true } := by
  induction es1 generalizing s with
  | nil =>
    show runSax uri nameTags nameTextTags es2 { s with hasError := true } = _
    exact runSax_hasErr uri nameTags nameTextTags es2 s
  | cons e es1' ih =>
    show runSax uri nameTags nameTextTags (es1' ++ SaxEvent.error :: es2)
        (stepEvent uri nameTags nameTextTags s e) = _
    exact ih (stepEvent uri nameTags nameTextTags s e)

/-- C2, counterexample: in lenient mode (`strict = false`) a markup error
captured during parsing still causes `parseArxmlDocument` to raise the
captured error instead of returning the best-effort tree. -/
theorem lenient_error_still_raises_cex :
    parseArxmlDocument "file:///a.arxml" false ["SHORT-NAME"] [] "<A"
        [.openTag "A" none, .error] = .error () := by rfl

/-- C2 (amended): a captured markup error does not abort the stream — the
handlers process the remaining events and build exactly the same stacks
as the error-free run — but at the end of the document
`parseArxmlDocument` raises the captured error in strict and lenient
mode alike; the mode only configures which errors the external sax
tokenizer reports. -/
theorem parse_error_raised_in_any_mode (uri : String) (strict : Bool)
    (nameTags nameTextTags : List String) (text : String)
    (es1 es2 : List SaxEvent) (ht : jsTrim text ≠ "") :
    parseArxmlDocument uri strict nameTags nameTextTags text
        (es1 ++ SaxEvent.error :: es2) = .error () ∧
      (runSax uri nameTags nameTextTags (es1 ++ SaxEvent.error :: es2)
          (initState uri)).arStack
        = (runSax uri nameTags nameTextTags (es1 ++ es2) (initState uri)).arStack ∧
      (runSax uri nameTags nameTextTags (es1 ++ SaxEvent.error :: es2)
          (initState uri)).elementStack
        = (runSax uri nameTags nameTextTags (es1 ++ es2)
            (initState uri)).elementStack := by
  have hsplit := runSax_error_split uri nameTags nameTextTags es1 es2 (initState uri)
  refine ⟨?_, by rw [hsplit], by rw [hsplit]⟩
  unfold parseArxmlDocument
  rw [if_neg ht]
  dsimp only
  rw [hsplit]
  rfl

/-- Witness for C2 (amended) on a concrete stream. -/
theorem parse_error_raised_witness :
    parseArxmlDocument "file:///b.arxml" true ["SHORT-NAME"] [] "<B"
        ([SaxEvent.openTag "B" none] ++ SaxEvent.error :: []) = .error () :=
  (parse_error_raised_in_any_mode "file:///b.arxml" true ["SHORT-NAME"] [] "<B"
    [SaxEvent.openTag "B" none] [] (by decide)).1

/-! ### At most one node per element frame (C10) -/
theorem str_empty_append (s : String) : "" ++ s = s := rfl

theorem head?_dropWhile_false (p : Char → Bool) (l : List Char) (a : Char)
    (h : (l.dropWhile p).head? = some a) : p a = false := by
  induction l with
  | nil => simp [List.dropWhile] at h
  | cons c rest ih =>
    rw [List.dropWhile_cons] at h
    by_cases hc : p c
    · rw [if_pos hc] at h
      exact ih h
    · rw [if_neg hc] at h
      simp only [List.head?_cons, Option.some.injEq] at h
      rw [← h]
      exact Bool.eq_false_iff.2 hc

theorem getLast?_jsTrimL_false (l : List Char) (a : Char)
    (h : (jsTrimL l).getLast? = some a) : jsWs a = false := by
  unfold jsTrimL dropEndWs at h
  rw [← List.head?_reverse, List.reverse_reverse] at h
  exact head?_dropWhile_false _ _ _ h

theorem head?_jsTrimL_false (l : List Char) (a : Char)
    (h : (jsTrimL l).head? = some a) : jsWs a = false := by
  have hpre : jsTrimL l <+: l.dropWhile jsWs := List.rdropWhile_prefix _ _
  obtain ⟨t, ht⟩ := hpre
  have hne : jsTrimL l ≠ [] := by
    intro hn
    rw [hn] at h
    simp at h
  have hh : (l.dropWhile jsWs).head? = some a := by
    rw [← ht]
    cases hjl : jsTrimL l with
    | nil => exact absurd hjl hne
    | cons x xs =>
      rw [hjl] at h
      simpa using h
  exact head?_dropWhile_false _ _ _ hh

theorem jsTrimL_idem (l : List Char) : jsTrimL (jsTrimL l) = jsTrimL l :=
  jsTrimL_eq_self (jsTrimL l) (head?_jsTrimL_false l) (getLast?_jsTrimL_false l)

theorem jsTrim_idem (s : String) : jsTrim (jsTrim s) = jsTrim s :=
  congrArg (fun l => (⟨l⟩ : String)) (jsTrimL_idem s.data)

theorem runChild_noNode (uri el nt : String)
    (nameTags nameTextTags : List String) (uuid : Option String)
    (hnt : nt ∈ nameTags) (v : String) (sn : Option String) :
    runSax uri nameTags nameTextTags (nameTagChild nt v) (sNoNode uri el uuid sn)
      = if jsTrim v = ""
          then sNoNode uri el uuid (some (jsTrim v))
          else sWithNode uri el uuid (some (jsTrim v)) (jsTrim v) := by
  by_cases hv : jsTrim v = ""
  · rw [if_pos hv]
    simp [nameTagChild, runSax, stepEvent, onOpenTag, onTextEvent, onCloseTag,
      createNodeForFrame, sNoNode, hnt, hv, str_empty_append]
  · rw [if_neg hv]
    simp [nameTagChild, runSax, stepEvent, onOpenTag, onTextEvent, onCloseTag,
      createNodeForFrame, sNoNode, sWithNode, createdFrame, hnt, hv,
      str_empty_append, jsTrim_idem]

theorem runChild_withNode (uri el nt : String)
    (nameTags nameTextTags : List String) (uuid : Option String)
    (hnt : nt ∈ nameTags) (v t : String) (sn : Option String) :
    runSax uri nameTags nameTextTags (nameTagChild nt v)
        (sWithNode uri el uuid sn t)
      = sWithNode uri el uuid (some (jsTrim v)) t := by
  simp [nameTagChild, runSax, stepEvent, onOpenTag, onTextEvent, onCloseTag,
    createNodeForFrame, sWithNode, hnt, str_empty_append]

theorem runChildren_withNode (uri el nt : String)
    (nameTags nameTextTags : List String) (uuid : Option String)
    (hnt : nt ∈ nameTags) (t : String) :
    ∀ (texts : List String) (sn : Option String),
      ∃ sn',
        runSax uri nameTags nameTextTags (texts.bind (nameTagChild nt))
            (sWithNode uri el uuid sn t)
          = sWithNode uri el uuid sn' t := by
  intro texts
  induction texts with
  | nil => exact fun sn => ⟨sn, rfl⟩
  | cons v rest ih =>
    intro sn
    show ∃ sn',
      runSax uri nameTags nameTextTags (nameTagChild nt v ++ rest.bind (nameTagChild nt))
          (sWithNode uri el uuid sn t) = sWithNode uri el uuid sn' t
    rw [runSax, List.foldl_append]
    rw [show List.foldl (stepEvent uri nameTags nameTextTags)
          (sWithNode uri el uuid sn t) (nameTagChild nt v)
        = runSax uri nameTags nameTextTags (nameTagChild nt v)
            (sWithNode uri el uuid sn t) from rfl]
    rw [runChild_withNode uri el nt nameTags nameTextTags uuid hnt v t sn]
    exact ih (some (jsTrim v))

theorem runChildren_noNode (uri el nt : String)
    (nameTags nameTextTags : List String) (uuid : Option String)
    (hnt : nt ∈ nameTags) :
    ∀ (texts : List String) (sn : Option String),
      ∃ sn',
        runSax uri nameTags nameTextTags (texts.bind (nameTagChild nt))
            (sNoNode uri el uuid sn)
          = match texts.find? (fun v => !decide (jsTrim v = "")) with
            | none => sNoNode uri el uuid sn'
            | some v => sWithNode uri el uuid sn' (jsTrim v) := by
  intro texts
  induction texts with
  | nil => exact fun sn => ⟨sn, rfl⟩
  | cons v rest ih =>
    intro sn
    have hsplit : (v :: rest).bind (nameTagChild nt)
        = nameTagChild nt v ++ rest.bind (nameTagChild nt) := by
      simp [List.bind]
    rw [hsplit, runSax, List.foldl_append]
    rw [show List.foldl (stepEvent uri nameTags nameTextTags)
          (sNoNode uri el uuid sn) (nameTagChild nt v)
        = runSax uri nameTags nameTextTags (nameTagChild nt v)
            (sNoNode uri el uuid sn) from rfl]
    rw [runChild_noNode uri el nt nameTags nameTextTags uuid hnt v sn]
    by_cases hv : jsTrim v = ""
    · rw [if_pos hv]
      obtain ⟨sn', hrun⟩ := ih (some (jsTrim v))
      refine ⟨sn', ?_⟩
      rw [show List.foldl (stepEvent uri nameTags nameTextTags)
            (sNoNode uri el uuid (some (jsTrim v))) (rest.bind (nameTagChild nt))
          = runSax uri nameTags nameTextTags (rest.bind (nameTagChild nt))
              (sNoNode uri el uuid (some (jsTrim v))) from rfl]
      rw [hrun]
      have hfind : (v :: rest).find? (fun v => !decide (jsTrim v = ""))
          = rest.find? (fun v => !decide (jsTrim v = "")) := by
        simp [List.find?_cons, hv]
      rw [hfind]
    · rw [if_neg hv]
      obtain ⟨sn', hrun⟩ :=
        runChildren_withNode uri el nt nameTags nameTextTags uuid hnt
          (jsTrim v) rest (some (jsTrim v))
      refine ⟨sn', ?_⟩
      rw [show List.foldl (stepEvent uri nameTags nameTextTags)
            (sWithNode uri el uuid (some (jsTrim v)) (jsTrim v))
            (rest.bind (nameTagChild nt))
          = runSax uri nameTags nameTextTags (rest.bind (nameTagChild nt))
              (sWithNode uri el uuid (some (jsTrim v)) (jsTrim v)) from rfl]
      rw [hrun]
      have hfind : (v :: rest).find? (fun v => !decide (jsTrim v = ""))
          = some v := by
        simp [List.find?_cons, hv]
      rw [hfind]

/-- C10: for an element frame with any number of name-tag children, at
most one node is ever created: none when every child's text trims to
empty, otherwise exactly one, named after the first name-tag child whose
trimmed text is nonempty; later name-tag closes on the same element
neither add a node nor rename the existing one. -/
theorem one_node_per_frame (uri : String) (strict : Bool)
    (nameTags nameTextTags : List String) (el nt : String)
    (uuid : Option String) (texts : List String)
    (hnt : nt ∈ nameTags) (hel : el ∉ nameTags) :
    parseArxmlDocument uri strict nameTags nameTextTags "<x>"
        (elementWithNames el nt uuid texts)
      = .ok (some (.mk "/" "" "AUTOSAR" uri none
          (match texts.find? (fun v => !decide (jsTrim v = "")) with
            | none => []
            | some v => [.mk (jsTrim v) ("/" ++ jsTrim v) el uri uuid []]))) := by
  unfold parseArxmlDocument
  rw [if_neg (by decide : ¬ jsTrim "<x>" = "")]
  dsimp only
  have hopen : stepEvent uri nameTags nameTextTags (initState uri)
      (.openTag el uuid) = sNoNode uri el uuid none := rfl
  have hrun : runSax uri nameTags nameTextTags (elementWithNames el nt uuid texts)
      (initState uri)
      = runSax uri nameTags nameTextTags
          (texts.bind (nameTagChild nt) ++ [SaxEvent.closeTag])
          (sNoNode uri el uuid none) := by
    rw [elementWithNames, runSax, List.foldl_cons, hopen]
    rfl
  rw [hrun, runSax, List.foldl_append]
  obtain ⟨sn', hmid⟩ :=
    runChildren_noNode uri el nt nameTags nameTextTags uuid hnt texts none
  rw [show List.foldl (stepEvent uri nameTags nameTextTags)
        (sNoNode uri el uuid none) (texts.bind (nameTagChild nt))
      = runSax uri nameTags nameTextTags (texts.bind (nameTagChild nt))
          (sNoNode uri el uuid none) from rfl]
  rw [hmid]
  cases hfind : texts.find? (fun v => !decide (jsTrim v = "")) with
  | none =>
    simp [stepEvent, onCloseTag, sNoNode, hel, finalizeStack, finalizeFrom,
      buildNode, rootFrame]
  | some v =>
    simp [stepEvent, onCloseTag, sWithNode, createdFrame, hel, finalizeStack,
      finalizeFrom, attachTo, buildNode, rootFrame, str_empty_append]

/-- Witness for C10: texts `["", "Pkg", "Other"]` yield exactly one node,
named `Pkg` (the first nonempty trimmed name text). -/
theorem one_node_per_frame_witness :
    parseArxmlDocument "file:///w.arxml" true ["SHORT-NAME"] [] "<x>"
        (elementWithNames "AR-PACKAGE" "SHORT-NAME" none ["", "Pkg", "Other"])
      = .ok (some (.mk "/" "" "AUTOSAR" "file:///w.arxml" none
          [.mk "Pkg" "/Pkg" "AR-PACKAGE" "file:///w.arxml" none []])) := by
  have h := one_node_per_frame "file:///w.arxml" true ["SHORT-NAME"] []
    "AR-PACKAGE" "SHORT-NAME" none ["", "Pkg", "Other"]
    (by decide) (by decide)
  exact h

theorem filterRemove_idem (uri : String) (o : Option (List ArxmlNode)) :
    filterRemove uri (filterRemove uri o) = filterRemove uri o := by
  cases o with
  | none => rfl
  | some nodes =>
    unfold filterRemove
    dsimp only
    by_cases hf : (nodes.filter (fun n => n.file ≠ uri)).length = 0
    · rw [if_pos hf]
    · rw [if_neg hf]
      dsimp only
      have hff : (nodes.filter (fun n => n.file ≠ uri)).filter
          (fun n => n.file ≠ uri) = nodes.filter (fun n => n.file ≠ uri) := by
        rw [List.filter_eq_self]
        intro a ha
        exact (List.mem_filter.1 ha).2
      rw [hff, if_neg hf]

theorem removeKey_get (uri : String) (idx : List (String × List ArxmlNode))
    (key k' : String) :
    jsMapGet (removeKey uri idx key) k'
      = if k' = key then filterRemove uri (jsMapGet idx key)
        else jsMapGet idx k' := by
  unfold removeKey
  cases hk : jsMapGet idx key with
  | none =>
    by_cases h : k' = key
    · rw [if_pos h, h, hk]
      rfl
    · rw [if_neg h]
  | some nodes =>
    dsimp only
    by_cases hf : (nodes.filter (fun n => n.file ≠ uri)).length = 0
    · rw [if_pos hf, jsMapGet_delete]
      by_cases h : k' = key
      · rw [if_pos h, if_pos h]
        simp only [filterRemove, if_pos hf]
      · rw [if_neg h, if_neg h]
    · rw [if_neg hf, jsMapGet_set]
      by_cases h : k' = key
      · rw [if_pos h, if_pos h]
        simp only [filterRemove, if_neg hf]
      · rw [if_neg h, if_neg h]

theorem foldl_removeKey_get (uri : String) (ks : List String) :
    ∀ (idx : List (String × List ArxmlNode)) (k' : String),
      jsMapGet (ks.foldl (removeKey uri) idx) k'
        = if k' ∈ ks then filterRemove uri (jsMapGet idx k')
          else jsMapGet idx k' := by
  induction ks with
  | nil => intro idx k'; simp
  | cons k ks' ih =>
    intro idx k'
    rw [List.foldl_cons, ih]
    by_cases hmem : k' ∈ ks'
    · rw [if_pos hmem, if_pos (List.mem_cons_of_mem _ hmem)]
      rw [removeKey_get]
      by_cases h : k' = k
      · rw [if_pos h, h, filterRemove_idem]
      · rw [if_neg h]
    · rw [if_neg hmem, removeKey_get]
      by_cases h : k' = k
      · rw [if_pos h, if_pos (h ▸ List.mem_cons_self k ks'), h]
      · rw [if_neg h, if_neg (by simp [h, hmem])]

theorem jsMapGet_mem {β : Type} (m : List (String × β)) (k : String) (v : β)
    (h : jsMapGet m k = some v) : (k, v) ∈ m := by
  induction m with
  | nil => simp [jsMapGet] at h
  | cons e rest ih =>
    rw [jsMapGet] at h
    by_cases he : e.1 = k
    · rw [if_pos he] at h
      have hv : v = e.2 := (Option.some.inj h).symm
      have hkv : (k, v) = e := by
        rw [← he, hv]
      rw [hkv]
      exact List.mem_cons_self _ _
    · rw [if_neg he] at h
      exact List.mem_cons_of_mem _ (ih h)

/-- Unpacked well-formedness: a node stored under `key` whose file is
`uri` implies `uri` has a key record containing `key`. -/
theorem wfIndex_spec (s : IndexState) (hwf : wfIndex s = true) (key : String)
    (n : ArxmlNode) (hn : n ∈ indexEntry s key) :
    ∃ ks, jsMapGet s.docKeys n.file = some ks ∧ key ∈ ks := by
  unfold indexEntry at hn
  cases hg : jsMapGet s.arpathIndex key with
  | none => rw [hg] at hn; simp at hn
  | some nodes =>
    rw [hg] at hn
    simp only [Option.getD_some] at hn
    have hmem := jsMapGet_mem _ _ _ hg
    unfold wfIndex at hwf
    rw [List.all_eq_true] at hwf
    have := hwf _ hmem
    rw [List.all_eq_true] at this
    have hn2 := this n hn
    cases hk : jsMapGet s.docKeys n.file with
    | none => rw [hk] at hn2; simp at hn2
    | some ks =>
      rw [hk] at hn2
      refine ⟨ks, rfl, ?_⟩
      simpa [List.contains_eq_any_beq, List.any_eq_true] using hn2

/-- C4: on any well-formed index state, `removeDocumentFromIndex uri`
removes exactly the entries that document contributed: afterwards every
key's entry is the old entry with that document's nodes filtered out
(so entries contributed by other documents — including ones under the
same variant key — are unchanged, in order), and the document's key
record is gone. -/
theorem removeDocument_removes_exactly (s : IndexState) (uri : String)
    (hwf : wfIndex s = true) :
    (∀ key, indexEntry (removeDocumentFromIndex uri s) key
        = (indexEntry s key).filter (fun n => n.file ≠ uri)) ∧
      jsMapGet (removeDocumentFromIndex uri s).docKeys uri = none := by
  unfold removeDocumentFromIndex
  cases hdk : jsMapGet s.docKeys uri with
  | none =>
    constructor
    · intro key
      have hall : ∀ n ∈ indexEntry s key, n.file ≠ uri := by
        intro n hn hfile
        obtain ⟨ks, hks, _⟩ := wfIndex_spec s hwf key n hn
        rw [hfile, hdk] at hks
        cases hks
      rw [List.filter_eq_self.2 (fun a ha => by
        simpa using hall a ha)]
    · exact hdk
  | some ks =>
    constructor
    · intro key
      show ((jsMapGet (ks.foldl (removeKey uri) s.arpathIndex) key).getD [])
          = (indexEntry s key).filter (fun n => n.file ≠ uri)
      rw [foldl_removeKey_get]
      by_cases hmem : key ∈ ks
      · rw [if_pos hmem]
        unfold indexEntry
        cases hg : jsMapGet s.arpathIndex key with
        | none => rfl
        | some nodes =>
          unfold filterRemove
          dsimp only
          by_cases hf : (nodes.filter (fun n => n.file ≠ uri)).length = 0
          · rw [if_pos hf]
            have hnil : nodes.filter (fun n => n.file ≠ uri) = [] :=
              List.length_eq_zero.1 hf
            simp only [Option.getD_none, Option.getD_some, hnil]
          · rw [if_neg hf]
            rfl
      · rw [if_neg hmem]
        have hall : ∀ n ∈ indexEntry s key, n.file ≠ uri := by
          intro n hn hfile
          obtain ⟨ks', hks, hkey⟩ := wfIndex_spec s hwf key n hn
          rw [hfile, hdk] at hks
          rw [← Option.some.inj hks] at hkey
          exact hmem hkey
        rw [List.filter_eq_self.2 (fun a ha => by
          simpa using hall a ha)]
        rfl
    · show jsMapGet (jsMapDelete s.docKeys uri) uri = none
      rw [jsMapGet_delete]
      simp

/-- Witness for C4: deindexing `d1` from the two-document state filters
its nodes out of the shared variant key `"/Pkg"` (keeping `d2`'s node)
and drops `d1`'s key record. -/
theorem removeDocument_removes_exactly_witness :
    indexEntry (removeDocumentFromIndex "file:///d1.arxml" demoIndexState) "/Pkg"
        = (indexEntry demoIndexState "/Pkg").filter
            (fun n => n.file ≠ "file:///d1.arxml") ∧
      jsMapGet (removeDocumentFromIndex "file:///d1.arxml"
          demoIndexState).docKeys "file:///d1.arxml" = none := by
  have h := removeDocument_removes_exactly demoIndexState "file:///d1.arxml"
    (by rfl)
  exact ⟨h.1 "/Pkg", h.2⟩

/-- Structural strong induction for `ArxmlNode`. -/
theorem nodeInd (P : ArxmlNode → Prop)
    (h : ∀ n a e f u cs, (∀ c ∈ cs, P c) → P (.mk n a e f u cs)) :
    ∀ t, P t
  | .mk n a e f u cs => h n a e f u cs (fun c hc => nodeInd P h c)
termination_by t => sizeOf t
decreasing_by
  simp_wf
  have := List.sizeOf_lt_of_mem hc
  omega

theorem reparentList_id_of (cs : List ArxmlNode)
    (h : ∀ c ∈ cs, reparentTree c = c) : reparentList cs = cs := by
  induction cs with
  | nil => rfl
  | cons c rest ih =>
    rw [reparentList, h c (List.mem_cons_self c rest),
      ih (fun c hc => h c (List.mem_cons_of_mem _ hc))]

theorem reparentTree_id : ∀ t, reparentTree t = t := by
  refine nodeInd _ ?_
  intro n a e f u cs hcs
  rw [reparentTree, reparentList_id_of cs hcs]

theorem map_reparentTree_id (l : List ArxmlNode) : l.map reparentTree = l := by
  induction l with
  | nil => rfl
  | cons c rest ih => rw [List.map_cons, reparentTree_id, ih]

theorem filteredChildren_eq_pruneForest (regexTest globTest : String → String → Bool)
    (filter : TreeFilterConfig) (cs : List ArxmlNode)
    (h : ∀ c ∈ cs, buildFilteredTreeWithFilter regexTest globTest filter c
        = if treeAnyMatches regexTest globTest filter c = true
            then some (pruneKeep regexTest globTest filter c) else none) :
    filteredChildren regexTest globTest filter cs
      = pruneForest regexTest globTest filter cs := by
  induction cs with
  | nil => rfl
  | cons c rest ih =>
    rw [filteredChildren, h c (List.mem_cons_self c rest),
      pruneForest]
    by_cases hc : treeAnyMatches regexTest globTest filter c = true
    · rw [if_pos hc, if_pos hc]
      rw [ih (fun c hc => h c (List.mem_cons_of_mem _ hc))]
    · rw [if_neg hc, if_neg hc]
      exact ih (fun c hc => h c (List.mem_cons_of_mem _ hc))

theorem pruneForest_empty_iff (regexTest globTest : String → String → Bool)
    (filter : TreeFilterConfig) (cs : List ArxmlNode) :
    (pruneForest regexTest globTest filter cs).length = 0
      ↔ forestAnyMatches regexTest globTest filter cs = false := by
  induction cs with
  | nil => simp [pruneForest, forestAnyMatches]
  | cons c rest ih =>
    rw [pruneForest, forestAnyMatches]
    by_cases hc : treeAnyMatches regexTest globTest filter c = true
    · rw [if_pos hc, hc]
      simp
    · rw [if_neg hc, Bool.or_eq_false_iff]
      constructor
      · intro hl
        exact ⟨Bool.eq_false_iff.2 hc, ih.1 hl⟩
      · intro hp
        exact ih.2 hp.2

theorem buildFiltered_closed_form (regexTest globTest : String → String → Bool)
    (filter : TreeFilterConfig) :
    ∀ t, buildFilteredTreeWithFilter regexTest globTest filter t
      = if treeAnyMatches regexTest globTest filter t = true
          then some (pruneKeep regexTest globTest filter t) else none := by
  refine nodeInd _ ?_
  intro n a e f u cs ih
  rw [buildFilteredTreeWithFilter]
  rw [filteredChildren_eq_pruneForest regexTest globTest filter cs ih]
  rw [treeAnyMatches, pruneKeep]
  by_cases hm : matchesTreeFilter regexTest globTest (.mk n a e f u cs) filter = true
  · rw [hm]
    simp only [Bool.not_true, Bool.false_and, Bool.true_or, if_true]
    rw [if_neg (by simp), map_reparentTree_id]
  · have hmf : matchesTreeFilter regexTest globTest (.mk n a e f u cs) filter = false :=
      Bool.eq_false_iff.2 hm
    rw [hmf]
    simp only [Bool.not_false, Bool.true_and, Bool.false_or]
    by_cases hf : forestAnyMatches regexTest globTest filter cs = true
    · rw [hf]
      have hlen : (pruneForest regexTest globTest filter cs).length ≠ 0 := by
        intro h0
        rw [(pruneForest_empty_iff regexTest globTest filter cs).1 h0] at hf
        cases hf
      rw [if_neg (by simp [hlen]), if_pos rfl, map_reparentTree_id]
    · have hff : forestAnyMatches regexTest globTest filter cs = false :=
        Bool.eq_false_iff.2 hf
      rw [hff]
      have hlen : (pruneForest regexTest globTest filter cs).length = 0 :=
        (pruneForest_empty_iff regexTest globTest filter cs).2 hff
      rw [if_pos (by simp [hlen]), if_neg (by simp)]

/-- C6: the filter projection keeps a node exactly when it or some node
of its subtree matches the filter predicate (equivalently: when it
matches or an already-filtered child survives), rebuilding the retained
nodes; and on the Scenario D tree it retains precisely the ancestor
chain down to the one matching grandchild, pruning the non-matching
sibling subtree. -/
theorem filter_projection_spec :
    (∀ (regexTest globTest : String → String → Bool)
        (filter : TreeFilterConfig) (t : ArxmlNode),
      buildFilteredTreeWithFilter regexTest globTest filter t
        = if treeAnyMatches regexTest globTest filter t = true
            then some (pruneKeep regexTest globTest filter t) else none) ∧
      buildFilteredTreeWithFilter (fun _ _ => false) (fun _ _ => false)
          scenarioDFilter scenarioDTree
        = some (.mk "Root" "" "AUTOSAR" "file:///d.arxml" none
            [ .mk "A" "/A" "AR-PACKAGE" "file:///d.arxml" none
                [ .mk "ExampleComponent" "/A/ExampleComponent" "SW"
                    "file:///d.arxml" none [] ] ]) :=
  ⟨fun regexTest globTest filter t =>
      buildFiltered_closed_form regexTest globTest filter t,
    by rfl⟩

theorem matches_children_irrelevant (regexTest globTest : String → String → Bool)
    (n a e f : String) (u : Option String) (cs cs' : List ArxmlNode)
    (filter : TreeFilterConfig) :
    matchesTreeFilter regexTest globTest (.mk n a e f u cs) filter
      = matchesTreeFilter regexTest globTest (.mk n a e f u cs') filter := rfl

theorem forestAny_prune (regexTest globTest : String → String → Bool)
    (filter : TreeFilterConfig) (cs : List ArxmlNode)
    (h : ∀ c ∈ cs,
      treeAnyMatches regexTest globTest filter (pruneKeep regexTest globTest filter c)
        = treeAnyMatches regexTest globTest filter c) :
    forestAnyMatches regexTest globTest filter (pruneForest regexTest globTest filter cs)
      = forestAnyMatches regexTest globTest filter cs := by
  induction cs with
  | nil => rfl
  | cons c rest ih =>
    rw [pruneForest, forestAnyMatches]
    by_cases hc : treeAnyMatches regexTest globTest filter c = true
    · rw [if_pos hc, forestAnyMatches, h c (List.mem_cons_self c rest),
        ih (fun c hcm => h c (List.mem_cons_of_mem _ hcm))]
    · rw [if_neg hc, ih (fun c hcm => h c (List.mem_cons_of_mem _ hcm)),
        Bool.eq_false_iff.2 hc, Bool.false_or]

theorem treeAny_prune (regexTest globTest : String → String → Bool)
    (filter : TreeFilterConfig) :
    ∀ t, treeAnyMatches regexTest globTest filter (pruneKeep regexTest globTest filter t)
      = treeAnyMatches regexTest globTest filter t := by
  refine nodeInd _ ?_
  intro n a e f u cs ih
  rw [pruneKeep, treeAnyMatches, treeAnyMatches,
    matches_children_irrelevant regexTest globTest n a e f u _ cs,
    forestAny_prune regexTest globTest filter cs ih]

theorem pruneForest_idem_of (regexTest globTest : String → String → Bool)
    (filter : TreeFilterConfig) (cs : List ArxmlNode)
    (h : ∀ c ∈ cs,
      pruneKeep regexTest globTest filter (pruneKeep regexTest globTest filter c)
        = pruneKeep regexTest globTest filter c) :
    pruneForest regexTest globTest filter (pruneForest regexTest globTest filter cs)
      = pruneForest regexTest globTest filter cs := by
  induction cs with
  | nil => rfl
  | cons c rest ih =>
    rw [pruneForest]
    by_cases hc : treeAnyMatches regexTest globTest filter c = true
    · rw [if_pos hc, pruneForest,
        if_pos (by rw [treeAny_prune]; exact hc),
        h c (List.mem_cons_self c rest),
        ih (fun c hcm => h c (List.mem_cons_of_mem _ hcm))]
    · rw [if_neg hc, ih (fun c hcm => h c (List.mem_cons_of_mem _ hcm))]

theorem pruneKeep_idem (regexTest globTest : String → String → Bool)
    (filter : TreeFilterConfig) :
    ∀ t, pruneKeep regexTest globTest filter (pruneKeep regexTest globTest filter t)
      = pruneKeep regexTest globTest filter t := by
  refine nodeInd _ ?_
  intro n a e f u cs ih
  rw [pruneKeep, pruneKeep, pruneForest_idem_of regexTest globTest filter cs ih]

/-- C7: the filter projection is idempotent — applying the same
`TreeFilterConfig` to an already-filtered tree returns that tree itself
(hence in particular the same node count and shape). -/
theorem filter_projection_idem (regexTest globTest : String → String → Bool)
    (filter : TreeFilterConfig) (t : ArxmlNode) :
    (buildFilteredTreeWithFilter regexTest globTest filter t).bind
        (buildFilteredTreeWithFilter regexTest globTest filter)
      = buildFilteredTreeWithFilter regexTest globTest filter t := by
  rw [buildFiltered_closed_form]
  by_cases h : treeAnyMatches regexTest globTest filter t = true
  · rw [if_pos h, Option.some_bind, buildFiltered_closed_form,
      if_pos (by rw [treeAny_prune]; exact h),
      pruneKeep_idem]
  · rw [if_neg h]
    rfl

theorem parseAndStore_log (s : BatchState) (d : BatchDoc) :
    (parseAndStore s d).parsedLog = s.parsedLog ++ [d.uri] := by
  unfold parseAndStore
  cases d.outcome with
  | ok root => rfl
  | absent =>
    dsimp only
    split
    · rfl
    · rfl
  | err => rfl

theorem parseAndStore_preserves (s : BatchState) (d : BatchDoc) (v : String)
    (hne : d.uri ≠ v) :
    jsMapGet (parseAndStore s d).cache v = jsMapGet s.cache v ∧
      ((v ∈ (parseAndStore s d).changed) ↔ v ∈ s.changed) ∧
      ((v ∈ (parseAndStore s d).parsedLog) ↔ v ∈ s.parsedLog) := by
  obtain ⟨c, ch, lg⟩ := s
  have hvne : ¬ (v = d.uri) := fun h => hne h.symm
  unfold parseAndStore
  cases d.outcome with
  | ok root =>
    refine ⟨?_, ?_, ?_⟩
    · show jsMapGet (jsMapSet c d.uri _) v = jsMapGet c v
      rw [jsMapGet_set, if_neg hvne]
    · show v ∈ setAdd ch d.uri ↔ v ∈ ch
      rw [setAdd_mem]
      exact ⟨fun h => h.elim id (fun h => absurd h hvne), Or.inl⟩
    · show v ∈ lg ++ [d.uri] ↔ v ∈ lg
      simp [hvne]
  | absent =>
    dsimp only
    split
    · refine ⟨?_, ?_, ?_⟩
      · show jsMapGet (jsMapDelete c d.uri) v = jsMapGet c v
        rw [jsMapGet_delete, if_neg hvne]
      · show v ∈ setAdd ch d.uri ↔ v ∈ ch
        rw [setAdd_mem]
        exact ⟨fun h => h.elim id (fun h => absurd h hvne), Or.inl⟩
      · show v ∈ lg ++ [d.uri] ↔ v ∈ lg
        simp [hvne]
    · refine ⟨rfl, Iff.rfl, ?_⟩
      show v ∈ lg ++ [d.uri] ↔ v ∈ lg
      simp [hvne]
  | err =>
    refine ⟨rfl, Iff.rfl, ?_⟩
    show v ∈ lg ++ [d.uri] ↔ v ∈ lg
    simp [hvne]

theorem processDoc_preserves (s : BatchState) (d : BatchDoc) (v : String)
    (hne : d.uri ≠ v) :
    jsMapGet (processDoc s d).cache v = jsMapGet s.cache v ∧
      ((v ∈ (processDoc s d).changed) ↔ v ∈ s.changed) ∧
      ((v ∈ (processDoc s d).parsedLog) ↔ v ∈ s.parsedLog) := by
  unfold processDoc
  split
  · split
    · exact ⟨rfl, Iff.rfl, Iff.rfl⟩
    · exact parseAndStore_preserves s d v hne
  · exact parseAndStore_preserves s d v hne

theorem loop_preserves (documents : List BatchDoc) (v : String) :
    ∀ s : BatchState, (∀ d ∈ documents, d.uri ≠ v) →
      jsMapGet (documents.foldl processDoc s).cache v = jsMapGet s.cache v ∧
        ((v ∈ (documents.foldl processDoc s).changed) ↔ v ∈ s.changed) ∧
        ((v ∈ (documents.foldl processDoc s).parsedLog) ↔ v ∈ s.parsedLog) := by
  induction documents with
  | nil => exact fun s _ => ⟨rfl, Iff.rfl, Iff.rfl⟩
  | cons x rest ih =>
    intro s hne
    rw [List.foldl_cons]
    obtain ⟨h1, h2, h3⟩ :=
      ih (processDoc s x) (fun d hd => hne d (List.mem_cons_of_mem _ hd))
    obtain ⟨g1, g2, g3⟩ := processDoc_preserves s x v (hne x (List.mem_cons_self _ _))
    exact ⟨h1.trans g1, h2.trans g2, h3.trans g3⟩

theorem keyDiffers_congr (c1 c2 : List (String × CacheEntry)) (d : BatchDoc)
    (h : jsMapGet c1 d.uri = jsMapGet c2 d.uri) :
    keyDiffers c1 d = keyDiffers c2 d := by
  unfold keyDiffers
  rw [h]

theorem processDoc_of_keyDiffers (s : BatchState) (d : BatchDoc)
    (h : keyDiffers s.cache d = true) : processDoc s d = parseAndStore s d := by
  unfold processDoc
  unfold keyDiffers at h
  cases hget : jsMapGet s.cache d.uri with
  | none => rfl
  | some e =>
    rw [hget] at h
    simp only [Bool.not_eq_true'] at h
    show (if keySame e d = true then s else parseAndStore s d) = parseAndStore s d
    rw [if_neg (by rw [h]; exact Bool.false_ne_true)]

theorem processDoc_of_keySame (s : BatchState) (d : BatchDoc)
    (h : keyDiffers s.cache d = false) : processDoc s d = s := by
  unfold processDoc
  unfold keyDiffers at h
  cases hget : jsMapGet s.cache d.uri with
  | none => rw [hget] at h; cases h
  | some e =>
    rw [hget] at h
    dsimp only at h
    have h2 : keySame e d = true := by
      cases hb : keySame e d with
      | true => rfl
      | false =>
        rw [hb] at h
        simp at h
    show (if keySame e d = true then s else parseAndStore s d) = s
    rw [if_pos h2]

theorem processAll_reparse_spec (documents : List BatchDoc) :
    ∀ (s : BatchState) (d : BatchDoc),
      (documents.map (fun d => d.uri)).Nodup → d ∈ documents →
      d.uri ∉ s.parsedLog → d.uri ∉ s.changed →
      ((d.uri ∈ (documents.foldl processDoc s).parsedLog)
          ↔ keyDiffers s.cache d = true) ∧
        (keyDiffers s.cache d = false →
          d.uri ∉ (documents.foldl processDoc s).changed ∧
            jsMapGet (documents.foldl processDoc s).cache d.uri
              = jsMapGet s.cache d.uri) := by
  induction documents with
  | nil =>
    intro s d _ hd
    cases hd
  | cons x rest ih =>
    intro s d hnd hd hlog hch
    rw [List.foldl_cons]
    have hndtail : (rest.map (fun d => d.uri)).Nodup :=
      (List.nodup_cons.1 (by simpa using hnd)).2
    cases List.mem_cons.1 hd with
    | inl heq =>
      subst heq
      have hrestne : ∀ d' ∈ rest, d'.uri ≠ d.uri := by
        intro d' hd' he
        have hx : d.uri ∉ rest.map (fun d => d.uri) :=
          (List.nodup_cons.1 (by simpa using hnd)).1
        exact hx (he ▸ List.mem_map_of_mem _ hd')
      by_cases hk : keyDiffers s.cache d = true
      · rw [processDoc_of_keyDiffers s d hk]
        obtain ⟨p1, p2, p3⟩ := loop_preserves rest d.uri (parseAndStore s d) hrestne
        constructor
        · apply iff_of_true
          · apply p3.2
            rw [parseAndStore_log]
            simp
          · exact hk
        · intro hkf
          rw [hkf] at hk
          cases hk
      · have hkf : keyDiffers s.cache d = false := by
          cases hb : keyDiffers s.cache d with
          | true => exact absurd hb hk
          | false => rfl
        rw [processDoc_of_keySame s d hkf]
        obtain ⟨p1, p2, p3⟩ := loop_preserves rest d.uri s hrestne
        constructor
        · apply iff_of_false
          · intro hm
            exact hlog (p3.1 hm)
          · rw [hkf]
            exact Bool.false_ne_true
        · intro _
          exact ⟨fun hm => hch (p2.1 hm), p1⟩
    | inr hdrest =>
      have hxu : x.uri ≠ d.uri := by
        intro he
        have hx : x.uri ∉ rest.map (fun d => d.uri) :=
          (List.nodup_cons.1 (by simpa using hnd)).1
        exact hx (he ▸ List.mem_map_of_mem _ hdrest)
      obtain ⟨q1, q2, q3⟩ := processDoc_preserves s x d.uri hxu
      have ihx := ih (processDoc s x) d hndtail hdrest
        (fun hm => hlog (q3.1 hm)) (fun hm => hch (q2.1 hm))
      rw [keyDiffers_congr _ _ d q1] at ihx
      refine ⟨ihx.1, ?_⟩
      intro hkf
      obtain ⟨r1, r2⟩ := ihx.2 hkf
      exact ⟨r1, r2.trans q1⟩

/-- C8: in a re-parse batch over documents with distinct uris, a
document is handed to the parser exactly when its cached comparison key
`(version, parseMode, nameTags, nameTextTags)` differs from the current
one (a missing cache entry counts as differing); when the key is
unchanged the document is skipped: it is not parsed, its uri is not in
the returned changed set, and its cache entry is untouched. -/
theorem parseDocuments_reparse_iff (documents : List BatchDoc)
    (cache : List (String × CacheEntry)) (d : BatchDoc)
    (hnd : (documents.map (fun d => d.uri)).Nodup) (hd : d ∈ documents) :
    ((d.uri ∈ (parseDocuments documents cache).parsedLog)
        ↔ keyDiffers cache d = true) ∧
      (keyDiffers cache d = false →
        d.uri ∉ (parseDocuments documents cache).changed ∧
          jsMapGet (parseDocuments documents cache).cache d.uri
            = jsMapGet cache d.uri) :=
  processAll_reparse_spec documents
    { cache := cache, changed := [], parsedLog := [] } d hnd hd
    (by simp) (by simp)

theorem processDoc_err (s : BatchState) (d : BatchDoc)
    (h : isErr d.outcome = true) :
    (processDoc s d).cache = s.cache ∧ (processDoc s d).changed = s.changed := by
  have houtcome : d.outcome = .err := by
    cases ho : d.outcome with
    | err => rfl
    | ok root => rw [ho] at h; cases h
    | absent => rw [ho] at h; cases h
  unfold processDoc
  split
  · split
    · exact ⟨rfl, rfl⟩
    · unfold parseAndStore
      rw [houtcome]
      exact ⟨rfl, rfl⟩
  · unfold parseAndStore
    rw [houtcome]
    exact ⟨rfl, rfl⟩

theorem processDoc_congr (s s' : BatchState) (d : BatchDoc)
    (hc : s.cache = s'.cache) (hch : s.changed = s'.changed) :
    (processDoc s d).cache = (processDoc s' d).cache ∧
      (processDoc s d).changed = (processDoc s' d).changed := by
  obtain ⟨c, ch, lg⟩ := s
  obtain ⟨c', ch', lg'⟩ := s'
  dsimp only at hc hch
  subst hc
  subst hch
  unfold processDoc
  dsimp only
  cases jsMapGet c d.uri with
  | some e =>
    dsimp only
    by_cases hk : keySame e d = true
    · rw [if_pos hk, if_pos hk]
      exact ⟨rfl, rfl⟩
    · rw [if_neg hk, if_neg hk]
      unfold parseAndStore
      dsimp only
      cases d.outcome with
      | ok root => exact ⟨rfl, rfl⟩
      | absent =>
        dsimp only
        split
        · exact ⟨rfl, rfl⟩
        · exact ⟨rfl, rfl⟩
      | err => exact ⟨rfl, rfl⟩
  | none =>
    dsimp only
    unfold parseAndStore
    dsimp only
    cases d.outcome with
    | ok root => exact ⟨rfl, rfl⟩
    | absent =>
      dsimp only
      split
      · exact ⟨rfl, rfl⟩
      · exact ⟨rfl, rfl⟩
    | err => exact ⟨rfl, rfl⟩

theorem loop_err_filtered (documents : List BatchDoc) :
    ∀ (s s' : BatchState), s.cache = s'.cache → s.changed = s'.changed →
      (documents.foldl processDoc s).cache
          = ((documents.filter (fun d => !isErr d.outcome)).foldl processDoc s').cache ∧
        (documents.foldl processDoc s).changed
          = ((documents.filter (fun d => !isErr d.outcome)).foldl processDoc s').changed := by
  induction documents with
  | nil => exact fun s s' hc hch => ⟨hc, hch⟩
  | cons x rest ih =>
    intro s s' hc hch
    by_cases hx : isErr x.outcome = true
    · have hfl : (x :: rest).filter (fun d => !isErr d.outcome)
          = rest.filter (fun d => !isErr d.outcome) := by
        simp [List.filter, hx]
      rw [hfl, List.foldl_cons]
      obtain ⟨e1, e2⟩ := processDoc_err s x hx
      exact ih (processDoc s x) s' (e1.trans hc) (e2.trans hch)
    · have hfl : (x :: rest).filter (fun d => !isErr d.outcome)
          = x :: rest.filter (fun d => !isErr d.outcome) := by
        simp [List.filter, hx]
      rw [hfl, List.foldl_cons, List.foldl_cons]
      obtain ⟨g1, g2⟩ := processDoc_congr s s' x hc hch
      exact ih (processDoc s x) (processDoc s' x) g1 g2

theorem processAll_absent_spec (documents : List BatchDoc) :
    ∀ (s : BatchState) (d : BatchDoc),
      (documents.map (fun d => d.uri)).Nodup → d ∈ documents →
      d.outcome = .absent → keyDiffers s.cache d = true →
      (jsMapGet s.cache d.uri).isSome = true →
      jsMapGet (documents.foldl processDoc s).cache d.uri = none ∧
        d.uri ∈ (documents.foldl processDoc s).changed := by
  induction documents with
  | nil =>
    intro s d _ hd
    cases hd
  | cons x rest ih =>
    intro s d hnd hd habs hk hsome
    rw [List.foldl_cons]
    have hndtail : (rest.map (fun d => d.uri)).Nodup :=
      (List.nodup_cons.1 (by simpa using hnd)).2
    cases List.mem_cons.1 hd with
    | inl heq =>
      subst heq
      have hrestne : ∀ d' ∈ rest, d'.uri ≠ d.uri := by
        intro d' hd' he
        have hx : d.uri ∉ rest.map (fun d => d.uri) :=
          (List.nodup_cons.1 (by simpa using hnd)).1
        exact hx (he ▸ List.mem_map_of_mem _ hd')
      rw [processDoc_of_keyDiffers s d hk]
      have hstep : jsMapGet (parseAndStore s d).cache d.uri = none ∧
          d.uri ∈ (parseAndStore s d).changed := by
        unfold parseAndStore
        rw [habs]
        dsimp only
        rw [if_pos (by exact hsome)]
        constructor
        · show jsMapGet (jsMapDelete s.cache d.uri) d.uri = none
          rw [jsMapGet_delete, if_pos rfl]
        · show d.uri ∈ setAdd s.changed d.uri
          exact (setAdd_mem _ _ _).2 (Or.inr rfl)
      obtain ⟨p1, p2, _⟩ := loop_preserves rest d.uri (parseAndStore s d) hrestne
      exact ⟨p1.trans hstep.1, p2.2 hstep.2⟩
    | inr hdrest =>
      have hxu : x.uri ≠ d.uri := by
        intro he
        have hx : x.uri ∉ rest.map (fun d => d.uri) :=
          (List.nodup_cons.1 (by simpa using hnd)).1
        exact hx (he ▸ List.mem_map_of_mem _ hdrest)
      obtain ⟨q1, _, _⟩ := processDoc_preserves s x d.uri hxu
      exact ih (processDoc s x) d hndtail hdrest habs
        (by rw [keyDiffers_congr _ _ d q1]; exact hk)
        (by rw [q1]; exact hsome)

/-- C9: (a) a document whose parse raises leaves the cache and the
returned changed set exactly as if it had not been in the batch — a
failed parse never prevents the remaining documents from being parsed —
and (b) when a parse returns absent for a previously cached document
(its key differing, so the parse actually runs), the cache entry is
removed and the uri is reported in the changed set. -/
theorem parseDocuments_isolation_and_absent (documents : List BatchDoc)
    (cache : List (String × CacheEntry)) :
    ((parseDocuments documents cache).cache
        = (parseDocuments (documents.filter (fun d => !isErr d.outcome)) cache).cache
      ∧ (parseDocuments documents cache).changed
        = (parseDocuments (documents.filter (fun d => !isErr d.outcome)) cache).changed)
    ∧ (∀ d ∈ documents, (documents.map (fun d => d.uri)).Nodup →
        d.outcome = .absent → keyDiffers cache d = true →
        (jsMapGet cache d.uri).isSome = true →
        jsMapGet (parseDocuments documents cache).cache d.uri = none ∧
          d.uri ∈ (parseDocuments documents cache).changed) := by
  constructor
  · exact loop_err_filtered documents
      { cache := cache, changed := [], parsedLog := [] }
      { cache := cache, changed := [], parsedLog := [] } rfl rfl
  · intro d hd hnd habs hk hsome
    exact processAll_absent_spec documents
      { cache := cache, changed := [], parsedLog := [] } d hnd hd habs hk hsome

/-- Witness for C8: in the batch `[docSame, docNew]` over `demoCache`,
the changed-key document is parsed while the unchanged-key document is
skipped, left out of the changed set, and keeps its cache entry. -/
theorem parseDocuments_reparse_iff_witness :
    (docNew.uri ∈ (parseDocuments [docSame, docNew] demoCache).parsedLog) ∧
      docSame.uri ∉ (parseDocuments [docSame, docNew] demoCache).changed ∧
      jsMapGet (parseDocuments [docSame, docNew] demoCache).cache docSame.uri
        = jsMapGet demoCache docSame.uri := by
  have h1 := parseDocuments_reparse_iff [docSame, docNew] demoCache docNew
    (by decide) (List.mem_cons_of_mem _ (List.mem_cons_self _ _))
  have h2 := parseDocuments_reparse_iff [docSame, docNew] demoCache docSame
    (by decide) (List.mem_cons_self _ _)
  exact ⟨h1.1.2 (by rfl), (h2.2 (by rfl)).1, (h2.2 (by rfl)).2⟩

/-- Witness for C9: in the batch `[docErr, docGone]` over `demoCache`,
the raising document leaves the outcome identical to the batch without
it, and the absent document's entry is removed with its uri reported. -/
theorem parseDocuments_isolation_and_absent_witness :
    (parseDocuments [docErr, docGone] demoCache).cache
        = (parseDocuments ([docErr, docGone].filter (fun d => !isErr d.outcome))
            demoCache).cache ∧
      jsMapGet (parseDocuments [docErr, docGone] demoCache).cache docGone.uri
          = none ∧
      docGone.uri ∈ (parseDocuments [docErr, docGone] demoCache).changed := by
  have h := parseDocuments_isolation_and_absent [docErr, docGone] demoCache
  have habs := h.2 docGone (List.mem_cons_of_mem _ (List.mem_cons_self _ _))
    (by decide) (by rfl) (by rfl) (by rfl)
  exact ⟨h.1.1, habs.1, habs.2⟩

end ArxmlTree
